import Mathlib

/-!
Shallow embedding of the analytics core of the `ahitool` repository
(`src/job_tracker.rs`, `src/jobs.rs`, and the job-processing pipeline of
`src/job_kpi.rs`), together with theorems settling the frozen claims about it.

Conventions of the embedding:
* `Timestamp` (chrono `DateTime<Utc>`) and `TimeDelta` are modelled as `Int`
  (seconds); Rust integer division truncates toward zero, modelled by
  `Int.tdiv`.
* Rust panics (`assert!`, `expect`, out-of-bounds indexing) are modelled by
  `Option`-valued functions returning `none`.
* The `f64` conversion rate is modelled as an exact rational `ℚ`.
* Fixed-size arrays `[[Option<Bucket>; N]; M]` are modelled as lists of lists;
  the mask shape plays the role of the const generics.
-/

namespace Ahitool

abbrev Timestamp := Int
abbrev TimeDelta := Int

/-- Bucket of one (kind, milestone) cell, from `job_tracker.rs` lines 5-17. -/
structure Bucket (J : Type) where
  achieved : List J
  cum_achieve_time : TimeDelta
  cum_loss_time : TimeDelta
deriving DecidableEq, Repr

/-- `Bucket::default()`: empty bucket. -/
def Bucket.default (J : Type) : Bucket J := ⟨[], 0, 0⟩

/-- The tracker state: an M×N grid of optional buckets (`job_tracker.rs` line 33). -/
abbrev JobTracker (J : Type) := List (List (Option (Bucket J)))

/-- `JobTracker::new(mask)` from `job_tracker.rs` lines 37-41. -/
def JobTracker.new (J : Type) (mask : List (List Bool)) : JobTracker J :=
  mask.map (fun row =>
    row.map (fun enabled => if enabled then some (Bucket.default J) else none))

/-- The milestone loop of `add_job` (`job_tracker.rs` lines 63-83): walks the
row and the timestamp slice in lockstep carrying `latest_timestamp`; returns
the updated row (with its untouched suffix) and the final latest timestamp, or
`none` on an assertion failure (a concrete timestamp at an inapplicable cell)
or out-of-bounds access. -/
def addLoop {J : Type} (job : J) :
    List (Option (Bucket J)) → List (Option Timestamp) → Option Timestamp →
    Option (List (Option (Bucket J)) × Option Timestamp)
  | row, [], latest => some (row, latest)
  | [], _ :: _, _ => none
  | none :: row, t :: ts, latest =>
    match t with
    | some _ => none
    | none =>
      match addLoop job row ts latest with
      | none => none
      | some (row2, latest2) => some (none :: row2, latest2)
  | some b :: row, t :: ts, latest =>
    match t with
    | none =>
      match addLoop job row ts latest with
      | none => none
      | some (row2, latest2) =>
        some (some { b with achieved := b.achieved ++ [job] } :: row2, latest2)
    | some tm =>
      let delta : TimeDelta :=
        match latest with
        | some l => tm - l
        | none => 0
      match addLoop job row ts (some tm) with
      | none => none
      | some (row2, latest2) =>
        some (some { b with achieved := b.achieved ++ [job],
                            cum_achieve_time := b.cum_achieve_time + delta } :: row2, latest2)

/-- Models `bucket_after(kind, timestamps.len() - 1)` followed by
`.expect(...).cum_loss_time += loss_time` (`job_tracker.rs` lines 92-95 and
112-116): applied to the row suffix strictly after the achieved prefix, it
adds the loss time to the first applicable bucket, or fails (`expect` panic)
when none exists. -/
def addLossAfter {J : Type} (loss_time : TimeDelta) :
    List (Option (Bucket J)) → Option (List (Option (Bucket J)))
  | [] => none
  | none :: row =>
    match addLossAfter loss_time row with
    | none => none
    | some row2 => some (none :: row2)
  | some b :: row =>
    some (some { b with cum_loss_time := b.cum_loss_time + loss_time } :: row)

/-- `add_job` restricted to the row of the given kind (`job_tracker.rs`
lines 54-102): length assertion, milestone loop, then the loss branch. -/
def addJobRow {J : Type} (job : J) (row : List (Option (Bucket J)))
    (timestamps : List (Option Timestamp)) (loss_timestamp : Option Timestamp) :
    Option (List (Option (Bucket J))) :=
  if 0 < timestamps.length ∧ timestamps.length ≤ row.length then
    match addLoop job row timestamps none with
    | none => none
    | some (row2, latest) =>
      match loss_timestamp with
      | some loss_ts =>
        match addLossAfter
            (match latest with | some l => loss_ts - l | none => 0)
            (row2.drop timestamps.length) with
        | none => none
        | some rest => some (row2.take timestamps.length ++ rest)
      | none =>
        if timestamps.length = row.length then some row2 else none
  else none

/-- `JobTracker::add_job` (`job_tracker.rs` lines 54-102); `none` models a
panic. -/
def JobTracker.add_job {J : Type} (t : JobTracker J) (job : J) (kind : Nat)
    (timestamps : List (Option Timestamp)) (loss_timestamp : Option Timestamp) :
    Option (JobTracker J) :=
  match t[kind]? with
  | none => none
  | some row =>
    match addJobRow job row timestamps loss_timestamp with
    | none => none
    | some row2 => some (t.set kind row2)

/-- `JobTracker::get_bucket` (`job_tracker.rs` lines 104-106). -/
def JobTracker.get_bucket {J : Type} (t : JobTracker J) (kind milestone : Nat) :
    Option (Bucket J) :=
  ((t[kind]?).getD [])[milestone]?.getD none

/-- `bucket_before` (`job_tracker.rs` lines 108-110): the first applicable
bucket found scanning indices `milestone - 1, ..., 0` downward; written as a
downward recursion, which performs exactly the iteration
`(0..milestone).rev().find_map(...)`. -/
def bucket_before {J : Type} (row : List (Option (Bucket J))) : Nat → Option (Bucket J)
  | 0 => none
  | m + 1 =>
    match (row[m]?).getD none with
    | some b => some b
    | none => bucket_before row m

/-- Result record of `calc_stats` (`job_tracker.rs` lines 197-204), with the
`f64` rate as an exact rational. -/
structure CalcStatsResult where
  num_total : Nat
  conversion_rate : Option ℚ
  average_time_to_achieve : TimeDelta
deriving DecidableEq, Repr

/-- The bucket-collection step of `calc_stats` (`job_tracker.rs` lines
134-141): one bucket per listed kind at the milestone, failing (`expect`
panic) if any kind cannot reach it. -/
def fetchBuckets {J : Type} (t : JobTracker J) (milestone : Nat) :
    List Nat → Option (List (Bucket J))
  | [] => some []
  | kind :: kinds =>
    match t[kind]? with
    | none => none
    | some row =>
      match row[milestone]? with
      | none => none
      | some none => none
      | some (some b) =>
        match fetchBuckets t milestone kinds with
        | none => none
        | some bs => some (b :: bs)

/-- The `num_potential` sum of `calc_stats` (`job_tracker.rs` lines 143-151),
walking the kinds zipped with their fetched buckets. -/
def potentialSum {J : Type} (t : JobTracker J) (milestone : Nat) :
    List (Nat × Bucket J) → Nat
  | [] => 0
  | (kind, b) :: rest =>
    (match bucket_before ((t[kind]?).getD []) milestone with
      | some pb => pb.achieved.length
      | none => b.achieved.length) + potentialSum t milestone rest

/-- `JobTracker::calc_stats` (`job_tracker.rs` lines 133-163); `none` models
the panic on an inapplicable (kind, milestone) pair. -/
def JobTracker.calc_stats {J : Type} (t : JobTracker J) (milestone : Nat)
    (kinds : List Nat) : Option CalcStatsResult :=
  match fetchBuckets t milestone kinds with
  | none => none
  | some buckets =>
    let num_total : Nat := (buckets.map (fun b => b.achieved.length)).sum
    let num_potential : Nat := potentialSum t milestone (kinds.zip buckets)
    let conversion_rate : Option ℚ :=
      if num_potential = 0 then none
      else some ((num_total : ℚ) / (num_potential : ℚ))
    let total_time_to_achieve := (buckets.map (fun b => b.cum_achieve_time)).sum
    let average_time_to_achieve : TimeDelta :=
      if num_total = 0 then 0 else total_time_to_achieve.tdiv (num_total : Int)
    some { num_total := num_total, conversion_rate := conversion_rate,
           average_time_to_achieve := average_time_to_achieve }

/-- The per-row loop of `calc_stats_of_loss` (`job_tracker.rs` lines 173-186),
over the row's applicable buckets, carrying `last_achieved`. -/
def lossLoop {J : Type} : Option Nat → List (Bucket J) → Nat × TimeDelta
  | _, [] => (0, 0)
  | last, b :: bs =>
    let rest := lossLoop (some b.achieved.length) bs
    match last with
    | some la => (la - b.achieved.length + rest.1, b.cum_loss_time + rest.2)
    | none => rest

/-- The row iteration of `calc_stats_of_loss` (`job_tracker.rs` lines
172-187): each row is walked skipping milestone 0 and filtering the
applicable buckets. -/
def lossRows {J : Type} : List (List (Option (Bucket J))) → Nat × TimeDelta
  | [] => (0, 0)
  | row :: rows =>
    let r := lossLoop none ((row.drop 1).filterMap id)
    let rest := lossRows rows
    (r.1 + rest.1, r.2 + rest.2)

/-- `JobTracker::calc_stats_of_loss` (`job_tracker.rs` lines 169-194). -/
def JobTracker.calc_stats_of_loss {J : Type} (t : JobTracker J) : Nat × TimeDelta :=
  let sums := lossRows t
  (sums.1, if sums.1 = 0 then 0 else sums.2.tdiv (sums.1 : Int))

/-- `Milestone` enum (`jobs.rs` lines 21-28). -/
inductive Milestone where
  | leadAcquired
  | appointmentMade
  | contingencySigned
  | contractSigned
  | installed
deriving DecidableEq, Repr

/-- `Milestone::into_int` (`jobs.rs` lines 43-51); also the derived `Ord`. -/
def Milestone.into_int : Milestone → Nat
  | .leadAcquired => 0
  | .appointmentMade => 1
  | .contingencySigned => 2
  | .contractSigned => 3
  | .installed => 4

/-- `Milestone::NUM_VARIANTS` (`jobs.rs` line 30). -/
def Milestone.NUM_VARIANTS : Nat := 5

/-- `Milestone::ordered_iter` (`jobs.rs` lines 32-41). -/
def Milestone.ordered : List Milestone :=
  [.leadAcquired, .appointmentMade, .contingencySigned, .contractSigned, .installed]

/-- `MilestoneDates` (`jobs.rs` lines 65-72). -/
structure MilestoneDates where
  appointment_date : Option Timestamp
  contingency_date : Option Timestamp
  contract_date : Option Timestamp
  install_date : Option Timestamp
  loss_date : Option Timestamp
deriving DecidableEq, Repr

/-- The `Index<Milestone>` impl for `MilestoneDates` (`jobs.rs` lines 73-87):
`LeadAcquired` always reads as `None`. -/
def MilestoneDates.date (md : MilestoneDates) : Milestone → Option Timestamp
  | .leadAcquired => none
  | .appointmentMade => md.appointment_date
  | .contingencySigned => md.contingency_date
  | .contractSigned => md.contract_date
  | .installed => md.install_date

/-- `MilestoneDates::timestamps_up_to` (`jobs.rs` lines 89-91). -/
def MilestoneDates.timestamps_up_to (md : MilestoneDates) (stage : Milestone) :
    List (Option Timestamp) :=
  (Milestone.ordered.takeWhile (fun s => s.into_int ≤ stage.into_int)).map md.date

/-- `Job` (`jobs.rs` lines 94-104). -/
structure Job where
  jnid : String
  milestone_dates : MilestoneDates
  sales_rep : Option String
  insurance_checkbox : Bool
  insurance_claim_number : Option String
  insurance_company_name : Option String
  job_number : Option String
  job_name : Option String
deriving DecidableEq, Repr

/-- `JobKind` (`jobs.rs` lines 106-111). -/
inductive JobKind where
  | insuranceWithContingency
  | insuranceWithoutContingency
  | retail
deriving DecidableEq, Repr

/-- `JobKind::into_int` (`jobs.rs` lines 115-121). -/
def JobKind.into_int : JobKind → Nat
  | .insuranceWithContingency => 0
  | .insuranceWithoutContingency => 1
  | .retail => 2

/-- `JobAnalysis` (`jobs.rs` lines 124-137). -/
structure JobAnalysis where
  kind : JobKind
  timestamps : List (Option Timestamp)
  loss_timestamp : Option Timestamp
deriving DecidableEq, Repr

/-- `AnalyzedJob` (`jobs.rs` lines 139-144). -/
structure AnalyzedJob where
  job : Job
  analysis : Option JobAnalysis
deriving DecidableEq, Repr

/-- `JobAnalysis::is_settled` (`jobs.rs` lines 147-149). -/
def JobAnalysis.is_settled (a : JobAnalysis) : Bool :=
  a.loss_timestamp.isSome || a.timestamps.length == Milestone.NUM_VARIANTS

/-- `JobAnalysisError` (`jobs.rs` lines 152-164). -/
inductive JobAnalysisError where
  | contingencyWithoutInsurance
  | inconsistentInsuranceInfo
  | outOfOrderDates (stage : Option Milestone)
  | skippedDates (stage : Milestone)
  | invalidLoss
deriving DecidableEq, Repr

/-- Mutable state of the milestone-retracing loop of `analyze_job`
(`jobs.rs` lines 173-189): the tentative kind, the accumulated errors, the
last confirmed date, the high-water-mark milestone, and the in-progress
flag. -/
structure RetraceState where
  kind : JobKind
  errors : List JobAnalysisError
  previous_date : Option Timestamp
  current_milestone : Milestone
  in_progress : Bool
deriving DecidableEq, Repr

/-- One iteration of the retracing loop of `analyze_job` (`jobs.rs` lines
190-234). An `Except.error` result models `break 'analysis`, carrying the
error list accumulated up to and including the aborting anomaly. -/
def retraceStep (md : MilestoneDates) (s : RetraceState) (milestone : Milestone) :
    Except (List JobAnalysisError) RetraceState :=
  match md.date milestone with
  | some date =>
    if s.in_progress then
      let s := { s with current_milestone := milestone }
      let s :=
        if milestone = .contingencySigned ∧ s.kind = .retail then
          { s with kind := .insuranceWithContingency,
                   errors := s.errors ++ [.contingencyWithoutInsurance] }
        else s
      let s :=
        if Milestone.contingencySigned.into_int < milestone.into_int ∧
            md.contingency_date = none ∧ s.kind = .insuranceWithContingency then
          { s with kind := .insuranceWithoutContingency }
        else s
      match s.previous_date with
      | some pd =>
        if date < pd then .error (s.errors ++ [.outOfOrderDates (some milestone)])
        else .ok { s with previous_date := some date }
      | none => .ok { s with previous_date := some date }
    else
      .error (s.errors ++ [.skippedDates milestone])
  | none =>
    if s.in_progress then
      if milestone ≠ .contingencySigned then .ok { s with in_progress := false }
      else .ok s
    else .ok s

/-- The retracing loop of `analyze_job` over the milestones after
`LeadAcquired` (`jobs.rs` line 190). -/
def retraceLoop (md : MilestoneDates) :
    RetraceState → List Milestone → Except (List JobAnalysisError) RetraceState
  | s, [] => .ok s
  | s, m :: ms =>
    match retraceStep md s m with
    | .error errs => .error errs
    | .ok s2 => retraceLoop md s2 ms

/-- Initial state of `analyze_job` (`jobs.rs` lines 173-189): the tentative
classification from the insurance checkbox and metadata. -/
def analyzeInit (job : Job) : RetraceState :=
  if job.insurance_checkbox then
    ⟨.insuranceWithContingency, [], none, .leadAcquired, true⟩
  else if job.insurance_company_name.isSome || job.insurance_claim_number.isSome then
    ⟨.insuranceWithContingency, [.inconsistentInsuranceInfo], none, .leadAcquired, true⟩
  else
    ⟨.retail, [], none, .leadAcquired, true⟩

/-- `analyze_job` (`jobs.rs` lines 166-266). -/
def analyze_job (job : Job) : AnalyzedJob × List JobAnalysisError :=
  match retraceLoop job.milestone_dates (analyzeInit job) (Milestone.ordered.drop 1) with
  | .error errs => ({ job := job, analysis := none }, errs)
  | .ok s =>
    match job.milestone_dates.loss_date with
    | some loss_date =>
      if lossOutOfOrder s.previous_date loss_date then
        ({ job := job, analysis := none }, s.errors ++ [.outOfOrderDates none])
      else
        let errors :=
          if Milestone.contractSigned.into_int ≤ s.current_milestone.into_int then
            s.errors ++ [.invalidLoss]
          else s.errors
        ({ job := job,
           analysis := some ⟨s.kind, job.milestone_dates.timestamps_up_to s.current_milestone,
                             job.milestone_dates.loss_date⟩ }, errors)
    | none =>
      ({ job := job,
         analysis := some ⟨s.kind, job.milestone_dates.timestamps_up_to s.current_milestone,
                           none⟩ }, s.errors)
where
  /-- The loss-date ordering check of `analyze_job` (`jobs.rs` lines 237-242). -/
  lossOutOfOrder : Option Timestamp → Timestamp → Bool
  | some pd, loss_date => loss_date < pd
  | none, _ => false

/-- The applicability mask of `build_job_tracker` (`job_kpi.rs` lines
146-152). -/
def buildMask : List (List Bool) :=
  [[true, true, true, true, true],
   [true, true, false, true, true],
   [true, true, false, true, true]]

/-- Models the global-tracker accumulation of `process_jobs` (`job_kpi.rs`
lines 110-141): each job is analyzed, and every settled analysis is fed to
`add_job` on the tracker built by `build_job_tracker`; `none` models a panic
inside `add_job`. -/
def process_jobs : List Job → Option (JobTracker AnalyzedJob) :=
  go (JobTracker.new AnalyzedJob buildMask)
where
  /-- Fold of the job loop of `process_jobs`. -/
  go (t : JobTracker AnalyzedJob) : List Job → Option (JobTracker AnalyzedJob)
  | [] => some t
  | job :: jobs =>
    let (analyzed, _errors) := analyze_job job
    match analyzed.analysis with
    | some analysis =>
      if analysis.is_settled then
        match t.add_job analyzed analysis.kind.into_int analysis.timestamps
            analysis.loss_timestamp with
        | none => none
        | some t2 => go t2 jobs
      else go t jobs
    | none => go t jobs

/-! ## Derived notions used to state the claims -/

/-- The value of the running `latest_timestamp` variable of `add_job` after
folding over a timestamp slice, starting from `latest`. -/
def latestAfter (latest : Option Timestamp) (ts : List (Option Timestamp)) : Option Timestamp :=
  ts.foldl (fun acc t => match t with | some x => some x | none => acc) latest

/-- The achieve-time delta contributed at index `i` of a timestamp slice:
zero for a `None` entry and for the first concrete timestamp, otherwise the
difference from the most recent earlier concrete timestamp in the slice. -/
def deltaAt (latest : Option Timestamp) (ts : List (Option Timestamp)) (i : Nat) : TimeDelta :=
  match (ts[i]?).getD none with
  | none => 0
  | some tm =>
    match latestAfter latest (ts.take i) with
    | some l => tm - l
    | none => 0

/-- One recorded `add_job` call. -/
structure AddCall (J : Type) where
  job : J
  kind : Nat
  timestamps : List (Option Timestamp)
  loss_timestamp : Option Timestamp

/-- Folds a sequence of `add_job` calls over a tracker; `none` as soon as one
call panics. -/
def foldAdd {J : Type} : JobTracker J → List (AddCall J) → Option (JobTracker J)
  | t, [] => some t
  | t, c :: cs =>
    match t.add_job c.job c.kind c.timestamps c.loss_timestamp with
    | none => none
    | some t2 => foldAdd t2 cs

/-! ## Basic facts about the `add_job` loop -/

theorem latestAfter_cons (latest : Option Timestamp) (t : Option Timestamp)
    (ts : List (Option Timestamp)) :
    latestAfter latest (t :: ts) =
      latestAfter (match t with | some x => some x | none => latest) ts := rfl

theorem deltaAt_cons_succ (latest : Option Timestamp) (t : Option Timestamp)
    (ts : List (Option Timestamp)) (i : Nat) :
    deltaAt latest (t :: ts) (i + 1) =
      deltaAt (match t with | some x => some x | none => latest) ts i := by
  unfold deltaAt
  rw [List.getElem?_cons_succ, List.take_succ_cons, latestAfter_cons]

theorem deltaAt_cons_zero_none (latest : Option Timestamp) (ts : List (Option Timestamp)) :
    deltaAt latest (none :: ts) 0 = 0 := by
  simp [deltaAt, List.getElem?_cons_zero]

theorem deltaAt_cons_zero_some (latest : Option Timestamp) (tm : Timestamp)
    (ts : List (Option Timestamp)) :
    deltaAt latest (some tm :: ts) 0 =
      (match latest with | some l => tm - l | none => 0) := by
  simp only [deltaAt, List.getElem?_cons_zero, Option.getD_some, List.take_zero]
  rfl

/-- Full characterization of the milestone loop of `add_job`: it preserves the
row length, leaves cells at or beyond the slice length untouched, pushes the
job into every applicable cell below the slice length while adding the delta
since the previous concrete timestamp, and returns the last concrete
timestamp seen. -/
theorem addLoop_spec {J : Type} (job : J) (ts : List (Option Timestamp)) :
    ∀ (row : List (Option (Bucket J))) (latest : Option Timestamp)
      (row2 : List (Option (Bucket J))) (l2 : Option Timestamp),
      addLoop job row ts latest = some (row2, l2) →
      row2.length = row.length ∧ ts.length ≤ row.length ∧ l2 = latestAfter latest ts ∧
      (∀ i, ts.length ≤ i → row2[i]? = row[i]?) ∧
      (∀ i, i < ts.length →
        row2[i]? = (row[i]?).map (Option.map (fun b =>
          ⟨b.achieved ++ [job], b.cum_achieve_time + deltaAt latest ts i,
           b.cum_loss_time⟩))) := by
  induction ts with
  | nil =>
    intro row latest row2 l2 h
    simp only [addLoop, Option.some_inj, Prod.mk.injEq] at h
    obtain ⟨h1, h2⟩ := h
    subst h1; subst h2
    exact ⟨rfl, Nat.zero_le _, rfl, fun i _ => rfl, fun i hi => absurd hi (by simp)⟩
  | cons t ts ih =>
    intro row latest row2 l2 h
    match row with
    | [] => simp [addLoop] at h
    | none :: row =>
      match t with
      | some tm => simp [addLoop] at h
      | none =>
        simp only [addLoop] at h
        cases hrec : addLoop job row ts latest with
        | none => rw [hrec] at h; simp at h
        | some p =>
          obtain ⟨r2, lr⟩ := p
          rw [hrec] at h
          simp only [Option.some_inj, Prod.mk.injEq] at h
          obtain ⟨h1, h2⟩ := h
          subst h1; subst h2
          obtain ⟨ih1, ih2, ih3, ih4, ih5⟩ := ih row latest r2 lr hrec
          refine ⟨by simp [ih1], by simp only [List.length_cons]; omega,
            by rw [latestAfter_cons]; exact ih3, ?_, ?_⟩
          · intro i hi
            cases i with
            | zero => simp only [List.length_cons] at hi; omega
            | succ i =>
              rw [List.getElem?_cons_succ, List.getElem?_cons_succ]
              exact ih4 i (by simp only [List.length_cons] at hi; omega)
          · intro i hi
            cases i with
            | zero => simp [List.getElem?_cons_zero]
            | succ i =>
              rw [List.getElem?_cons_succ, List.getElem?_cons_succ, deltaAt_cons_succ]
              exact ih5 i (by simp only [List.length_cons] at hi; omega)
    | some b :: row =>
      match t with
      | none =>
        simp only [addLoop] at h
        cases hrec : addLoop job row ts latest with
        | none => rw [hrec] at h; simp at h
        | some p =>
          obtain ⟨r2, lr⟩ := p
          rw [hrec] at h
          simp only [Option.some_inj, Prod.mk.injEq] at h
          obtain ⟨h1, h2⟩ := h
          subst h1; subst h2
          obtain ⟨ih1, ih2, ih3, ih4, ih5⟩ := ih row latest r2 lr hrec
          refine ⟨by simp [ih1], by simp only [List.length_cons]; omega,
            by rw [latestAfter_cons]; exact ih3, ?_, ?_⟩
          · intro i hi
            cases i with
            | zero => simp only [List.length_cons] at hi; omega
            | succ i =>
              rw [List.getElem?_cons_succ, List.getElem?_cons_succ]
              exact ih4 i (by simp only [List.length_cons] at hi; omega)
          · intro i hi
            cases i with
            | zero =>
              simp only [List.getElem?_cons_zero, Option.map_some', deltaAt_cons_zero_none]
              simp
            | succ i =>
              rw [List.getElem?_cons_succ, List.getElem?_cons_succ, deltaAt_cons_succ]
              exact ih5 i (by simp only [List.length_cons] at hi; omega)
      | some tm =>
        simp only [addLoop] at h
        cases hrec : addLoop job row ts (some tm) with
        | none => rw [hrec] at h; simp at h
        | some p =>
          obtain ⟨r2, lr⟩ := p
          rw [hrec] at h
          simp only [Option.some_inj, Prod.mk.injEq] at h
          obtain ⟨h1, h2⟩ := h
          subst h1; subst h2
          obtain ⟨ih1, ih2, ih3, ih4, ih5⟩ := ih row (some tm) r2 lr hrec
          refine ⟨by simp [ih1], by simp only [List.length_cons]; omega,
            by rw [latestAfter_cons]; exact ih3, ?_, ?_⟩
          · intro i hi
            cases i with
            | zero => simp only [List.length_cons] at hi; omega
            | succ i =>
              rw [List.getElem?_cons_succ, List.getElem?_cons_succ]
              exact ih4 i (by simp only [List.length_cons] at hi; omega)
          · intro i hi
            cases i with
            | zero =>
              simp only [List.getElem?_cons_zero, Option.map_some', deltaAt_cons_zero_some]
            | succ i =>
              rw [List.getElem?_cons_succ, List.getElem?_cons_succ, deltaAt_cons_succ]
              exact ih5 i (by simp only [List.length_cons] at hi; omega)

/-- The loss-time step preserves the achieved lists and achieve-times of all
cells, as well as the row length and shape. -/
theorem addLossAfter_spec {J : Type} (lt : TimeDelta) (l : List (Option (Bucket J))) :
    ∀ (l2 : List (Option (Bucket J))), addLossAfter lt l = some l2 →
      l2.length = l.length ∧
      (∀ (i : Nat),
        (l2[i]?).map (Option.map (fun (b : Bucket J) => (b.achieved, b.cum_achieve_time))) =
        (l[i]?).map (Option.map (fun (b : Bucket J) => (b.achieved, b.cum_achieve_time)))) := by
  induction l with
  | nil => intro l2 h; simp [addLossAfter] at h
  | cons c l ih =>
    intro l2 h
    match c with
    | none =>
      simp only [addLossAfter] at h
      cases hrec : addLossAfter lt l with
      | none => rw [hrec] at h; simp at h
      | some r2 =>
        rw [hrec] at h
        simp only [Option.some_inj] at h
        subst h
        obtain ⟨ih1, ih2⟩ := ih r2 hrec
        refine ⟨by simp [ih1], ?_⟩
        intro i
        cases i with
        | zero => simp [List.getElem?_cons_zero]
        | succ i => rw [List.getElem?_cons_succ, List.getElem?_cons_succ]; exact ih2 i
    | some b =>
      simp only [addLossAfter, Option.some_inj] at h
      subst h
      refine ⟨rfl, ?_⟩
      intro i
      cases i with
      | zero => simp [List.getElem?_cons_zero]
      | succ i => rw [List.getElem?_cons_succ, List.getElem?_cons_succ]

/-- When no applicable bucket remains, the loss-time step panics. -/
theorem addLossAfter_eq_none {J : Type} (lt : TimeDelta) (l : List (Option (Bucket J))) :
    (∀ c ∈ l, c = none) → addLossAfter lt l = none := by
  induction l with
  | nil => intro _; rfl
  | cons c l ih =>
    intro h
    match c with
    | none =>
      simp only [addLossAfter]
      rw [ih (fun c hc => h c (List.mem_cons_of_mem _ hc))]
    | some b => exact absurd (h (some b) (List.mem_cons_self _ _)) (by simp)

/-- Destructuring a successful `add_job` call. -/
theorem add_job_dest {J : Type} (t : JobTracker J) (job : J) (kind : Nat)
    (ts : List (Option Timestamp)) (loss : Option Timestamp) (t2 : JobTracker J)
    (h : t.add_job job kind ts loss = some t2) :
    ∃ row rowF, t[kind]? = some row ∧ addJobRow job row ts loss = some rowF ∧
      t2 = t.set kind rowF := by
  unfold JobTracker.add_job at h
  cases hrow : t[kind]? with
  | none => simp [hrow] at h
  | some row =>
    simp only [hrow] at h
    cases hrf : addJobRow job row ts loss with
    | none => simp [hrf] at h
    | some rowF =>
      simp only [hrf, Option.some_inj] at h
      exact ⟨row, rowF, rfl, hrf, h.symm⟩

/-- Continuation lemma for `addJobRow_cells`: the loss branch. -/
theorem addJobRow_cells_aux {J : Type} (job : J) (row : List (Option (Bucket J)))
    (ts : List (Option Timestamp)) (rowF row2 : List (Option (Bucket J))) (lt : TimeDelta)
    (hlen : 0 < ts.length ∧ ts.length ≤ row.length)
    (s1 : row2.length = row.length)
    (s4 : ∀ i, ts.length ≤ i → row2[i]? = row[i]?)
    (s5 : ∀ i, i < ts.length →
      row2[i]? = (row[i]?).map (Option.map (fun b =>
        ⟨b.achieved ++ [job], b.cum_achieve_time + deltaAt none ts i, b.cum_loss_time⟩)))
    (h : (match addLossAfter lt (row2.drop ts.length) with
          | none => none
          | some rest => some (row2.take ts.length ++ rest)) = some rowF) :
    rowF.length = row.length ∧ 0 < ts.length ∧ ts.length ≤ row.length ∧
    (∀ i, i < ts.length →
      rowF[i]? = (row[i]?).map (Option.map (fun b =>
        ⟨b.achieved ++ [job], b.cum_achieve_time + deltaAt none ts i, b.cum_loss_time⟩))) ∧
    (∀ (i : Nat), ts.length ≤ i →
      (rowF[i]?).map (Option.map (fun (b : Bucket J) => (b.achieved, b.cum_achieve_time))) =
      (row[i]?).map (Option.map (fun (b : Bucket J) => (b.achieved, b.cum_achieve_time)))) := by
  cases hla : addLossAfter lt (row2.drop ts.length) with
  | none => simp [hla] at h
  | some rest =>
    simp only [hla, Option.some_inj] at h
    subst h
    obtain ⟨la1, la2⟩ := addLossAfter_spec _ _ rest hla
    have htake : (row2.take ts.length).length = ts.length := by
      rw [List.length_take]; omega
    have hlen2 : rest.length = row2.length - ts.length := by
      rw [la1, List.length_drop]
    refine ⟨?_, hlen.1, hlen.2, ?_, ?_⟩
    · rw [List.length_append, htake, hlen2]; omega
    · intro i hi
      rw [List.getElem?_append_left (by rw [htake]; exact hi),
        List.getElem?_take_of_lt hi]
      exact s5 i hi
    · intro i hi
      rw [List.getElem?_append_right (by rw [htake]; exact hi), htake]
      have := la2 (i - ts.length)
      rw [List.getElem?_drop] at this
      have harith : ts.length + (i - ts.length) = i := by omega
      rw [harith] at this
      rw [this, s4 i hi]

/-- Full cell-level characterization of a successful `add_job` on the row of
the job's kind: below the slice length every applicable bucket gets the job
appended and the delta added, and at or beyond the slice length the achieved
list and achieve-time are untouched. -/
theorem addJobRow_cells {J : Type} (job : J) (row : List (Option (Bucket J)))
    (ts : List (Option Timestamp)) (loss : Option Timestamp)
    (rowF : List (Option (Bucket J))) (h : addJobRow job row ts loss = some rowF) :
    rowF.length = row.length ∧ 0 < ts.length ∧ ts.length ≤ row.length ∧
    (∀ i, i < ts.length →
      rowF[i]? = (row[i]?).map (Option.map (fun b =>
        ⟨b.achieved ++ [job], b.cum_achieve_time + deltaAt none ts i, b.cum_loss_time⟩))) ∧
    (∀ (i : Nat), ts.length ≤ i →
      (rowF[i]?).map (Option.map (fun (b : Bucket J) => (b.achieved, b.cum_achieve_time))) =
      (row[i]?).map (Option.map (fun (b : Bucket J) => (b.achieved, b.cum_achieve_time)))) := by
  unfold addJobRow at h
  by_cases hlen : 0 < ts.length ∧ ts.length ≤ row.length
  case neg => simp [if_neg hlen] at h
  rw [if_pos hlen] at h
  cases hloop : addLoop job row ts none with
  | none => simp [hloop] at h
  | some p =>
    obtain ⟨row2, latest⟩ := p
    simp only [hloop] at h
    obtain ⟨s1, s2, _s3, s4, s5⟩ := addLoop_spec job ts row none row2 latest hloop
    cases loss with
    | none =>
      by_cases heq : ts.length = row.length
      · rw [if_pos heq] at h
        simp only [Option.some_inj] at h
        subst h
        exact ⟨s1, hlen.1, hlen.2, s5, fun i hi => by rw [s4 i hi]⟩
      · simp [if_neg heq] at h
    | some loss_ts =>
      cases latest with
      | none => exact addJobRow_cells_aux job row ts rowF row2 _ hlen s1 s4 s5 h
      | some l => exact addJobRow_cells_aux job row ts rowF row2 _ hlen s1 s4 s5 h

/-! ## Claim C4 -/

/-- Claim C4: for every valid (non-panicking) `add_job` call, each applicable
milestone index below the slice length gets the job appended to its achieved
list; a concrete timestamp adds the duration since the most recent earlier
concrete timestamp (zero when there is no earlier one), and a `None` entry adds
exactly zero to the cumulative achieve-time while still appending the job;
the cumulative loss-time of those cells is unchanged. -/
theorem c4_thm {J : Type} (t : JobTracker J) (job : J) (kind : Nat)
    (ts : List (Option Timestamp)) (loss : Option Timestamp) (t2 : JobTracker J)
    (row : List (Option (Bucket J)))
    (h : t.add_job job kind ts loss = some t2) (hrow : t[kind]? = some row) :
    ∃ rowF, t2[kind]? = some rowF ∧
      ∀ i, i < ts.length →
        rowF[i]? = (row[i]?).map (Option.map (fun b =>
          ⟨b.achieved ++ [job], b.cum_achieve_time + deltaAt none ts i,
           b.cum_loss_time⟩)) ∧
        ((ts[i]?).getD none = none → deltaAt none ts i = 0) := by
  obtain ⟨row0, rowF, hrow0, hrf, ht2⟩ := add_job_dest t job kind ts loss t2 h
  rw [hrow] at hrow0
  simp only [Option.some_inj] at hrow0
  subst hrow0
  obtain ⟨_, _, _, hcells, _⟩ := addJobRow_cells job row ts loss rowF hrf
  have hk : kind < t.length := (List.getElem?_eq_some.mp hrow).1
  refine ⟨rowF, ?_, ?_⟩
  · subst ht2
    exact List.getElem?_set_self (by simpa using hk)
  · intro i hi
    refine ⟨hcells i hi, fun hnone => ?_⟩
    unfold deltaAt
    rw [hnone]

/-- Witness for C4: a concrete two-milestone add, checking the appended job
and the recorded delta. -/
theorem c4_wit :
    ∃ rowF, (([[some ⟨[], 0, 0⟩, some ⟨[], 0, 0⟩]].set 0 rowF :
        JobTracker Unit))[0]? = some rowF ∧
      ∀ i, i < ([none, some 7] : List (Option Timestamp)).length →
        rowF[i]? = (([some ⟨[], 0, 0⟩, some ⟨[], 0, 0⟩] :
            List (Option (Bucket Unit)))[i]?).map (Option.map (fun b =>
          ⟨b.achieved ++ [()], b.cum_achieve_time + deltaAt none [none, some 7] i,
           b.cum_loss_time⟩)) ∧
        ((([none, some 7] : List (Option Timestamp))[i]?).getD none = none →
          deltaAt none [none, some 7] i = 0) := by
  have h := c4_thm (J := Unit) [[some ⟨[], 0, 0⟩, some ⟨[], 0, 0⟩]] () 0
    [none, some 7] none [[some ⟨[()], 0, 0⟩, some ⟨[()], 0, 0⟩]]
    [some ⟨[], 0, 0⟩, some ⟨[], 0, 0⟩] (by decide) (by decide)
  obtain ⟨rowF, h1, h2⟩ := h
  exact ⟨rowF, by simp, h2⟩

/-! ## Claim C8 -/

/-- Claim C8 (amended): contrary to the claim, `add_job` does itself enforce
the all-milestones contract: with no loss timestamp and a valid positive
slice length that does not span the whole row, it asserts and panics. -/
theorem c8_thm {J : Type} (t : JobTracker J) (job : J) (kind : Nat)
    (ts : List (Option Timestamp)) (row : List (Option (Bucket J)))
    (hrow : t[kind]? = some row)
    (h1 : 0 < ts.length) (h2 : ts.length < row.length) :
    t.add_job job kind ts none = none := by
  have hr : addJobRow job row ts (none : Option Timestamp) = none := by
    unfold addJobRow
    rw [if_pos ⟨h1, Nat.le_of_lt h2⟩]
    cases hloop : addLoop job row ts none with
    | none => rfl
    | some p =>
      obtain ⟨row2, latest⟩ := p
      simp only [if_neg (Nat.ne_of_lt h2)]
  unfold JobTracker.add_job
  simp only [hrow, hr]

/-- Counterexample for C8 as stated: the identical call succeeds when the
slice spans all milestones and panics when one milestone is missing, so the
length contract is enforced inside `add_job` itself. -/
theorem c8_cex :
    JobTracker.add_job (JobTracker.new Unit [[true, true]]) () 0
      [some 0, some 1] none ≠ none ∧
    JobTracker.add_job (JobTracker.new Unit [[true, true]]) () 0
      [some 0] none = none := by
  constructor
  · decide
  · decide

/-- Witness for C8 (amended): the enforced panic at a concrete input. -/
theorem c8_wit :
    JobTracker.add_job (JobTracker.new Unit [[true, true]]) () 0
      [some 0] none = none :=
  c8_thm (JobTracker.new Unit [[true, true]]) () 0 [some 0]
    [some (Bucket.default Unit), some (Bucket.default Unit)]
    (by decide) (by decide) (by decide)

/-! ## Claim C9 -/

/-- The concrete pipeline job of claim C9: all five milestone dates present
plus a loss date. -/
def c9_job : Job :=
  { jnid := "j9",
    milestone_dates := ⟨some 1, some 2, some 3, some 4, some 5⟩,
    sales_rep := none,
    insurance_checkbox := true,
    insurance_claim_number := none,
    insurance_company_name := none,
    job_number := none,
    job_name := none }

/-- Claim C9: `add_job` with a loss timestamp panics whenever no applicable
bucket exists strictly after the achieved prefix; in particular a job carrying
all five milestone dates plus a loss date is analyzed into a settled analysis
whose only anomaly is the non-aborting `InvalidLoss`, is fed to `add_job` by
the processing pipeline, and makes it panic. -/
theorem c9_thm :
    (∀ (J : Type) (t : JobTracker J) (job : J) (kind : Nat)
       (ts : List (Option Timestamp)) (loss_ts : Timestamp)
       (row : List (Option (Bucket J))),
       t[kind]? = some row → (∀ c ∈ row.drop ts.length, c = none) →
       t.add_job job kind ts (some loss_ts) = none) ∧
    (analyze_job c9_job).2 = [.invalidLoss] ∧
    (∃ a, (analyze_job c9_job).1.analysis = some a ∧ a.is_settled = true ∧
          a.loss_timestamp = some 5 ∧ a.timestamps.length = Milestone.NUM_VARIANTS) ∧
    process_jobs [c9_job] = none := by
  refine ⟨?_, by decide, ⟨⟨.insuranceWithContingency,
    [none, some 1, some 2, some 3, some 4], some 5⟩, by decide, by decide, by decide,
    by decide⟩, by decide⟩
  intro J t job kind ts loss_ts row hrow hnone
  have hrowlevel : addJobRow job row ts (some loss_ts) = none := by
    unfold addJobRow
    by_cases hlen : 0 < ts.length ∧ ts.length ≤ row.length
    · rw [if_pos hlen]
      cases hloop : addLoop job row ts none with
      | none => rfl
      | some p =>
        obtain ⟨row2, latest⟩ := p
        obtain ⟨s1, s2, _s3, s4, _s5⟩ := addLoop_spec job ts row none row2 latest hloop
        have hdropnone : ∀ c ∈ row2.drop ts.length, c = none := by
          intro c hc
          obtain ⟨i, hi⟩ := List.getElem?_of_mem hc
          rw [List.getElem?_drop, s4 (ts.length + i) (by omega),
            ← List.getElem?_drop] at hi
          exact hnone c (List.getElem?_mem hi)
        cases latest with
        | none => simp only [addLossAfter_eq_none _ _ hdropnone]
        | some l => simp only [addLossAfter_eq_none _ _ hdropnone]
    · rw [if_neg hlen]
  unfold JobTracker.add_job
  simp only [hrow, hrowlevel]

/-- Witness for C9: the general panic statement applied at a one-cell tracker
whose single milestone is already covered. -/
theorem c9_wit :
    JobTracker.add_job (JobTracker.new Unit [[true]]) () 0 [some 0] (some 5) = none :=
  c9_thm.1 Unit (JobTracker.new Unit [[true]]) () 0 [some 0] 5
    [some (Bucket.default Unit)] (by decide) (by decide)

/-! ## Claim C10 -/

/-- Row-monotonicity invariant: along each row, achieved counts do not
increase with milestone index over applicable cells. -/
def MonoInv {J : Type} (t : JobTracker J) : Prop :=
  ∀ (kind : Nat) (row : List (Option (Bucket J))), t[kind]? = some row →
    ∀ (i j : Nat) (bi bj : Bucket J), i ≤ j →
      row[i]? = some (some bi) → row[j]? = some (some bj) →
      bj.achieved.length ≤ bi.achieved.length

theorem monoInv_new {J : Type} (mask : List (List Bool)) :
    MonoInv (JobTracker.new J mask) := by
  unfold MonoInv
  intro kind row hrow i j bi bj hij hi hj
  unfold JobTracker.new at hrow
  rw [List.getElem?_map] at hrow
  cases hmr : mask[kind]? with
  | none => rw [hmr] at hrow; simp at hrow
  | some mrow =>
    rw [hmr] at hrow
    simp only [Option.map_some', Option.some_inj] at hrow
    subst hrow
    rw [List.getElem?_map] at hi hj
    cases hmi : mrow[i]? with
    | none => rw [hmi] at hi; simp at hi
    | some e =>
      rw [hmi] at hi
      cases hmj : mrow[j]? with
      | none => rw [hmj] at hj; simp at hj
      | some e2 =>
        rw [hmj] at hj
        cases e <;> cases e2 <;> simp [Bucket.default] at hi hj ⊢
        rw [← hi, ← hj]

/-- Achieved-count characterization of a successful `add_job` at the row of
the job's kind. -/
theorem addJobRow_count {J : Type} (job : J) (row : List (Option (Bucket J)))
    (ts : List (Option Timestamp)) (loss : Option Timestamp)
    (rowF : List (Option (Bucket J))) (h : addJobRow job row ts loss = some rowF) :
    ∀ i bi, rowF[i]? = some (some bi) →
      ∃ b0, row[i]? = some (some b0) ∧
        ((i < ts.length ∧ bi.achieved.length = b0.achieved.length + 1) ∨
         (ts.length ≤ i ∧ bi.achieved.length = b0.achieved.length)) := by
  obtain ⟨_, _, _, hcells, hsuffix⟩ := addJobRow_cells job row ts loss rowF h
  intro i bi hbi
  by_cases hi : i < ts.length
  · have := hcells i hi
    rw [hbi] at this
    cases hri : row[i]? with
    | none => rw [hri] at this; simp at this
    | some c =>
      rw [hri] at this
      cases c with
      | none => simp at this
      | some b0 =>
        simp only [Option.map_some', Option.some_inj] at this
        refine ⟨b0, rfl, Or.inl ⟨hi, ?_⟩⟩
        rw [this]
        simp
  · have := hsuffix i (by omega)
    rw [hbi] at this
    cases hri : row[i]? with
    | none => rw [hri] at this; simp at this
    | some c =>
      rw [hri] at this
      cases c with
      | none => simp at this
      | some b0 =>
        simp only [Option.map_some', Option.some_inj] at this
        refine ⟨b0, rfl, Or.inr ⟨by omega, ?_⟩⟩
        have : bi.achieved = b0.achieved := congrArg Prod.fst this
        rw [this]

/-- `add_job` preserves the row-monotonicity invariant. -/
theorem monoInv_step {J : Type} (t : JobTracker J) (job : J) (kind : Nat)
    (ts : List (Option Timestamp)) (loss : Option Timestamp) (t2 : JobTracker J)
    (h : t.add_job job kind ts loss = some t2) (hinv : MonoInv t) : MonoInv t2 := by
  obtain ⟨row, rowF, hrow, hrf, ht2⟩ := add_job_dest t job kind ts loss t2 h
  have hk : kind < t.length := (List.getElem?_eq_some.mp hrow).1
  unfold MonoInv
  intro k r hr i j bi bj hij hi hj
  by_cases hkk : kind = k
  · subst hkk
    subst ht2
    rw [List.getElem?_set_self (by simpa using hk), Option.some_inj] at hr
    subst hr
    obtain ⟨b0i, hb0i, hci⟩ := addJobRow_count job row ts loss rowF hrf i bi hi
    obtain ⟨b0j, hb0j, hcj⟩ := addJobRow_count job row ts loss rowF hrf j bj hj
    have hbase := hinv kind row hrow i j b0i b0j hij hb0i hb0j
    rcases hci with ⟨_, hei⟩ | ⟨_, hei⟩ <;> rcases hcj with ⟨_, hej⟩ | ⟨_, hej⟩ <;> omega
  · subst ht2
    rw [List.getElem?_set_ne hkk] at hr
    exact hinv k r hr i j bi bj hij hi hj

/-- `foldAdd` preserves the row-monotonicity invariant. -/
theorem foldAdd_monoInv {J : Type} (calls : List (AddCall J)) :
    ∀ t t2, foldAdd t calls = some t2 → MonoInv t → MonoInv t2 := by
  induction calls with
  | nil =>
    intro t t2 h hi
    simp only [foldAdd, Option.some_inj] at h
    subst h
    exact hi
  | cons c cs ih =>
    intro t t2 h hi
    simp only [foldAdd] at h
    cases hstep : t.add_job c.job c.kind c.timestamps c.loss_timestamp with
    | none => simp [hstep] at h
    | some tm =>
      simp only [hstep] at h
      exact ih tm t2 h (monoInv_step t c.job c.kind c.timestamps c.loss_timestamp tm hstep hi)

/-- Claim C10: in every tracker built by `new(mask)` and a finite sequence of
successful `add_job` calls, the achieved counts along the applicable cells of
each row are non-increasing in milestone order; consequently the pairwise
subtraction of `calc_stats_of_loss` over consecutive applicable buckets never
underflows. -/
theorem c10_thm {J : Type} (mask : List (List Bool)) (calls : List (AddCall J))
    (t : JobTracker J) (h : foldAdd (JobTracker.new J mask) calls = some t) :
    (∀ (kind : Nat) (row : List (Option (Bucket J))), t[kind]? = some row →
      ∀ (i j : Nat) (bi bj : Bucket J), i ≤ j →
        row[i]? = some (some bi) → row[j]? = some (some bj) →
        bj.achieved.length ≤ bi.achieved.length) ∧
    (∀ (kind : Nat) (row : List (Option (Bucket J))), t[kind]? = some row →
      ((row.drop 1).filterMap id).Pairwise
        (fun (a b : Bucket J) => b.achieved.length ≤ a.achieved.length)) := by
  have hmono := foldAdd_monoInv calls _ t h (monoInv_new mask)
  refine ⟨hmono, ?_⟩
  intro kind row hrow
  have hpw : row.Pairwise (fun (a b : Option (Bucket J)) =>
      ∀ x ∈ a, ∀ y ∈ b, y.achieved.length ≤ x.achieved.length) := by
    rw [List.pairwise_iff_getElem]
    intro i j hi hj hij bi hbi bj hbj
    exact hmono kind row hrow i j bi bj (Nat.le_of_lt hij)
      (by rw [List.getElem?_eq_getElem hi]; simp_all)
      (by rw [List.getElem?_eq_getElem hj]; simp_all)
  exact List.Pairwise.filterMap id (fun a b hab => hab) (hpw.drop (n := 1))

/-- Witness for C10: a concrete run with one lost job, instantiated at the
only row and the pair of applicable cells (0, 1). -/
theorem c10_wit :
    (([[some ⟨[()], 0, 0⟩, some ⟨[], 0, 3⟩]] : JobTracker Unit))[0]?
        = some [some ⟨[()], 0, 0⟩, some ⟨[], 0, 3⟩] ∧
    ((⟨[], 0, 3⟩ : Bucket Unit)).achieved.length ≤
      ((⟨[()], 0, 0⟩ : Bucket Unit)).achieved.length :=
  ⟨by decide,
    (c10_thm [[true, true]] [⟨(), 0, [some 0], some 3⟩]
        [[some ⟨[()], 0, 0⟩, some ⟨[], 0, 3⟩]] (by decide)).1 0
      [some ⟨[()], 0, 0⟩, some ⟨[], 0, 3⟩] (by decide) 0 1 ⟨[()], 0, 0⟩ ⟨[], 0, 3⟩
      (by decide) (by decide) (by decide)⟩

/-! ## Claim C1 -/

/-- Counterexample for C1 as stated: a tracker whose queried bucket is empty
but whose predecessor bucket is not has `num_total = 0` yet conversion rate
`Some 0`, not `None`: the rate is `None` only when the potential denominator
is zero. -/
theorem c1_cex :
    ¬ (∀ (t : JobTracker Unit) (m : Nat) (kinds : List Nat) (r : CalcStatsResult),
        t.calc_stats m kinds = some r → r.num_total = 0 →
        r.conversion_rate = none ∧ r.average_time_to_achieve = 0) := by
  intro hclaim
  have h := hclaim [[some ⟨[()], 0, 0⟩, some ⟨[], 0, 0⟩]] 1 [0]
    ⟨0, some 0, 0⟩
    (by simp [JobTracker.calc_stats, fetchBuckets, potentialSum, bucket_before]) rfl
  exact absurd h.1 (by simp)

/-! ## Claim C5 -/

/-- The achieved count of a kind at a milestone (zero for an inapplicable
cell); `get_bucket` based. -/
def countAt {J : Type} (t : JobTracker J) (k m : Nat) : Nat :=
  match t.get_bucket k m with
  | some b => b.achieved.length
  | none => 0

/-- Index form of the backward search prescribed by the spec: the nearest
applicable milestone strictly before the given one, skipping inapplicable
cells. -/
def lastApplicableBefore {J : Type} (row : List (Option (Bucket J))) (milestone : Nat) :
    Option Nat :=
  ((List.range milestone).filter (fun ms => ((row[ms]?).getD none).isSome)).getLast?

/-- Denominator prescribed by the spec, stated independently of
`bucket_before`: per kind, the achieved count at the nearest applicable
milestone strictly before the given one, or the kind's own achieved count when
no earlier applicable milestone exists; summed over the listed kinds. -/
def spec_potential {J : Type} (t : JobTracker J) (m : Nat) (kinds : List Nat) : Nat :=
  (kinds.map (fun k =>
    match lastApplicableBefore ((t[k]?).getD []) m with
    | some p =>
      match (((t[k]?).getD [])[p]?).getD none with
      | some b => b.achieved.length
      | none => 0
    | none => countAt t k m)).sum

/-- `bucket_before` performs exactly the spec's backward search. -/
theorem bucket_before_eq {J : Type} (row : List (Option (Bucket J))) :
    ∀ m : Nat, bucket_before row m =
      (lastApplicableBefore row m).bind (fun p => (row[p]?).getD none) := by
  intro m
  induction m with
  | zero => rfl
  | succ m ih =>
    show (match (row[m]?).getD none with
          | some b => some b
          | none => bucket_before row m) = _
    cases hc : (row[m]?).getD none with
    | some b =>
      simp [lastApplicableBefore, List.range_succ, List.filter_append, hc]
    | none =>
      have hlab : lastApplicableBefore row (m + 1) = lastApplicableBefore row m := by
        simp [lastApplicableBefore, List.range_succ, List.filter_append, hc]
      rw [hlab]
      exact ih

/-- A found predecessor index is applicable. -/
theorem lastApplicableBefore_isSome {J : Type} (row : List (Option (Bucket J)))
    (m p : Nat) (h : lastApplicableBefore row m = some p) :
    ((row[p]?).getD none).isSome := by
  unfold lastApplicableBefore at h
  have hmem := List.mem_of_mem_getLast? h
  simpa using List.of_mem_filter hmem

/-- Applicability of every listed kind makes the bucket collection succeed,
with the achieved counts of the collected buckets being the per-kind counts,
and the code's potential denominator agreeing with the spec's backward-search
denominator. -/
theorem fetchBuckets_of_applicable {J : Type} (t : JobTracker J) (m : Nat) :
    ∀ kinds : List Nat, (∀ k ∈ kinds, (t.get_bucket k m).isSome) →
      ∃ buckets, fetchBuckets t m kinds = some buckets ∧
        buckets.map (fun b => b.achieved.length) = kinds.map (fun k => countAt t k m) ∧
        potentialSum t m (kinds.zip buckets) = spec_potential t m kinds := by
  intro kinds
  induction kinds with
  | nil =>
    intro _
    exact ⟨[], rfl, rfl, by simp [potentialSum, spec_potential]⟩
  | cons k ks ih =>
    intro happ
    have hk := happ k (List.mem_cons_self _ _)
    obtain ⟨bs, hbs, hcounts, hpot⟩ := ih (fun k2 hk2 => happ k2 (List.mem_cons_of_mem _ hk2))
    unfold JobTracker.get_bucket at hk
    cases hrow : t[k]? with
    | none => rw [hrow] at hk; simp at hk
    | some row =>
      rw [hrow] at hk
      simp only [Option.getD_some] at hk
      cases hcell : row[m]? with
      | none => rw [hcell] at hk; simp at hk
      | some c =>
        rw [hcell] at hk
        cases c with
        | none => simp at hk
        | some b =>
          refine ⟨b :: bs, ?_, ?_, ?_⟩
          · unfold fetchBuckets
            simp only [hrow, hcell, hbs]
          · simp only [List.map_cons, hcounts, List.cons.injEq, and_true]
            unfold countAt JobTracker.get_bucket
            rw [hrow]
            simp only [Option.getD_some, hcell, Option.getD_some]
          · show (match bucket_before ((t[k]?).getD []) m with
                  | some pb => pb.achieved.length
                  | none => b.achieved.length) + potentialSum t m (ks.zip bs) = _
            unfold spec_potential
            simp only [List.map_cons, List.sum_cons]
            rw [hpot]
            unfold spec_potential
            congr 1
            rw [bucket_before_eq]
            simp only [hrow, Option.getD_some]
            cases hlab : lastApplicableBefore row m with
            | none =>
              simp only [Option.none_bind]
              unfold countAt JobTracker.get_bucket
              simp only [hrow, Option.getD_some, hcell]
            | some p =>
              simp only [Option.some_bind]
              have hps := lastApplicableBefore_isSome row m p hlab
              cases hp : (row[p]?).getD none with
              | none => rw [hp] at hps; simp at hps
              | some pb => rfl

/-- Total of the achieved counts of a bucket collection. -/
def sumCounts {J : Type} (buckets : List (Bucket J)) : Nat :=
  (buckets.map (fun b => b.achieved.length)).sum

/-- Total of the cumulative achieve-times of a bucket collection. -/
def sumTimes {J : Type} (buckets : List (Bucket J)) : TimeDelta :=
  (buckets.map (fun b => b.cum_achieve_time)).sum

/-- Closed form of a successful `calc_stats` call. -/
theorem calc_stats_eq {J : Type} (t : JobTracker J) (m : Nat) (kinds : List Nat)
    (buckets : List (Bucket J)) (hfb : fetchBuckets t m kinds = some buckets) :
    t.calc_stats m kinds = some
      ⟨sumCounts buckets,
       if potentialSum t m (kinds.zip buckets) = 0 then none
       else some ((sumCounts buckets : ℚ) / (potentialSum t m (kinds.zip buckets) : ℚ)),
       if sumCounts buckets = 0 then 0
       else (sumTimes buckets).tdiv (sumCounts buckets : Int)⟩ := by
  unfold JobTracker.calc_stats
  rw [hfb]
  rfl

/-- Claim C1 (amended): whenever `calc_stats` succeeds with `num_total = 0`,
the average time to achieve is the zero duration, and the conversion rate is
`None` exactly when the potential denominator (the code's `num_potential`,
computed by `potentialSum` over the fetched buckets) is zero; otherwise it is
`Some 0`. -/
theorem c1_thm {J : Type} (t : JobTracker J) (m : Nat) (kinds : List Nat)
    (r : CalcStatsResult) (buckets : List (Bucket J))
    (hfb : fetchBuckets t m kinds = some buckets)
    (h : t.calc_stats m kinds = some r)
    (hnt : r.num_total = 0) :
    r.average_time_to_achieve = 0 ∧
    (r.conversion_rate = none ↔ potentialSum t m (kinds.zip buckets) = 0) ∧
    (potentialSum t m (kinds.zip buckets) ≠ 0 → r.conversion_rate = some 0) := by
  rw [calc_stats_eq t m kinds buckets hfb] at h
  simp only [Option.some_inj] at h
  subst h
  have hnt0 : sumCounts buckets = 0 := hnt
  refine ⟨?_, ?_, ?_⟩
  · show (if sumCounts buckets = 0 then 0
        else (sumTimes buckets).tdiv (sumCounts buckets : Int)) = 0
    rw [if_pos hnt0]
  · show (if potentialSum t m (kinds.zip buckets) = 0 then none
        else some ((sumCounts buckets : ℚ) / (potentialSum t m (kinds.zip buckets) : ℚ)))
          = none ↔ potentialSum t m (kinds.zip buckets) = 0
    by_cases hp : potentialSum t m (kinds.zip buckets) = 0
    · rw [if_pos hp]
      simp [hp]
    · rw [if_neg hp]
      simp [hp]
  · intro hp
    show (if potentialSum t m (kinds.zip buckets) = 0 then none
        else some ((sumCounts buckets : ℚ) / (potentialSum t m (kinds.zip buckets) : ℚ)))
          = some 0
    rw [if_neg hp, hnt0]
    simp

/-- Witness for C1 (amended) at a concrete two-bucket tracker with an empty
queried bucket and a nonempty predecessor: the denominator is positive and the
rate is `Some 0`. -/
theorem c1_wit :
    ((⟨0, some 0, 0⟩ : CalcStatsResult).average_time_to_achieve = 0) ∧
    ((⟨0, some 0, 0⟩ : CalcStatsResult).conversion_rate = none ↔
      potentialSum ([[some ⟨[()], 0, 0⟩, some ⟨[], 0, 0⟩]] : JobTracker Unit) 1
        ([0].zip [⟨[], 0, 0⟩]) = 0) ∧
    (potentialSum ([[some ⟨[()], 0, 0⟩, some ⟨[], 0, 0⟩]] : JobTracker Unit) 1
        ([0].zip [⟨[], 0, 0⟩]) ≠ 0 →
      (⟨0, some 0, 0⟩ : CalcStatsResult).conversion_rate = some 0) :=
  c1_thm (J := Unit) [[some ⟨[()], 0, 0⟩, some ⟨[], 0, 0⟩]] 1 [0]
    ⟨0, some 0, 0⟩ [⟨[], 0, 0⟩] (by decide)
    (by simp [JobTracker.calc_stats, fetchBuckets, potentialSum, bucket_before]) rfl

/-- Claim C5: when every listed kind can reach the milestone, `calc_stats`
succeeds; its total is the sum over the listed kinds of the achieved counts at
the milestone, and its conversion rate equals that total divided by the
spec's denominator (nearest applicable milestone strictly before, own count
when none exists, summed over kinds) whenever the denominator is positive,
and is `None` when the denominator is zero. -/
theorem c5_thm {J : Type} (t : JobTracker J) (m : Nat) (kinds : List Nat)
    (happ : ∀ k ∈ kinds, (t.get_bucket k m).isSome) :
    ∃ r, t.calc_stats m kinds = some r ∧
      r.num_total = (kinds.map (fun k => countAt t k m)).sum ∧
      (spec_potential t m kinds = 0 → r.conversion_rate = none) ∧
      (0 < spec_potential t m kinds →
        r.conversion_rate = some ((r.num_total : ℚ) / (spec_potential t m kinds : ℚ))) := by
  obtain ⟨buckets, hfb, hcounts, hpot⟩ := fetchBuckets_of_applicable t m kinds happ
  refine ⟨_, calc_stats_eq t m kinds buckets hfb, ?_, ?_, ?_⟩
  · show sumCounts buckets = _
    unfold sumCounts
    rw [hcounts]
  · intro hzero
    show (if potentialSum t m (kinds.zip buckets) = 0 then none else _) = none
    rw [if_pos]
    rw [hpot]
    exact hzero
  · intro hposi
    show (if potentialSum t m (kinds.zip buckets) = 0 then none else
        some ((sumCounts buckets : ℚ) / (potentialSum t m (kinds.zip buckets) : ℚ))) =
      some ((sumCounts buckets : ℚ) / ((spec_potential t m kinds : Nat) : ℚ))
    rw [if_neg (by rw [hpot]; omega), hpot]

/-- Witness for C5 at a concrete one-kind tracker. -/
theorem c5_wit :
    ∃ r, JobTracker.calc_stats [[some ⟨[(), ()], 0, 0⟩, some ⟨[()], 0, 0⟩]] 1 [0] = some r ∧
      r.num_total = ([0].map (fun k =>
        countAt ([[some ⟨[(), ()], 0, 0⟩, some ⟨[()], 0, 0⟩]] : JobTracker Unit) k 1)).sum ∧
      (spec_potential ([[some ⟨[(), ()], 0, 0⟩, some ⟨[()], 0, 0⟩]] : JobTracker Unit) 1 [0] = 0 →
        r.conversion_rate = none) ∧
      (0 < spec_potential ([[some ⟨[(), ()], 0, 0⟩, some ⟨[()], 0, 0⟩]] : JobTracker Unit) 1 [0] →
        r.conversion_rate = some ((r.num_total : ℚ) /
          (spec_potential ([[some ⟨[(), ()], 0, 0⟩, some ⟨[()], 0, 0⟩]] : JobTracker Unit) 1 [0] : ℚ))) :=
  c5_thm [[some ⟨[(), ()], 0, 0⟩, some ⟨[()], 0, 0⟩]] 1 [0] (by decide)

/-! ## Claim C6 -/

/-- Consecutive pairs of a list. -/
def consecPairs {α : Type} (l : List α) : List (α × α) := l.zip l.tail

/-- Loss transitions per the (amended) spec: drop milestone 0, keep the
applicable buckets, pair consecutive ones. -/
def rowLossPairs {J : Type} (row : List (Option (Bucket J))) : List (Bucket J × Bucket J) :=
  consecPairs ((row.drop 1).filterMap id)

/-- Spec-side total number of losses. -/
def spec_total_losses {J : Type} (t : JobTracker J) : Nat :=
  (t.map (fun row => ((rowLossPairs row).map
    (fun p => p.1.achieved.length - p.2.achieved.length)).sum)).sum

/-- Spec-side total loss time (summed over the later bucket of each
transition). -/
def spec_total_loss_time {J : Type} (t : JobTracker J) : TimeDelta :=
  (t.map (fun row => ((rowLossPairs row).map (fun p => p.2.cum_loss_time)).sum)).sum

theorem lossLoop_some {J : Type} :
    ∀ (l : List (Bucket J)) (n : Nat),
      lossLoop (some n) l =
        (match l with
         | [] => ((0 : Nat), (0 : TimeDelta))
         | b :: _ =>
           (n - b.achieved.length + ((consecPairs l).map
              (fun p => p.1.achieved.length - p.2.achieved.length)).sum,
            b.cum_loss_time + ((consecPairs l).map (fun p => p.2.cum_loss_time)).sum)) := by
  intro l
  induction l with
  | nil => intro n; rfl
  | cons b bs ih =>
    intro n
    show (n - b.achieved.length + (lossLoop (some b.achieved.length) bs).1,
          b.cum_loss_time + (lossLoop (some b.achieved.length) bs).2) = _
    rw [ih b.achieved.length]
    cases bs with
    | nil => simp [consecPairs]
    | cons b2 bs2 =>
      simp [consecPairs, List.zip_cons_cons]

theorem lossLoop_none {J : Type} (l : List (Bucket J)) :
    lossLoop none l =
      (((consecPairs l).map (fun p => p.1.achieved.length - p.2.achieved.length)).sum,
       ((consecPairs l).map (fun p => p.2.cum_loss_time)).sum) := by
  cases l with
  | nil => rfl
  | cons b bs =>
    show lossLoop (some b.achieved.length) bs = _
    rw [lossLoop_some]
    cases bs with
    | nil => rfl
    | cons b2 bs2 =>
      simp only [consecPairs, List.tail_cons, List.zip_cons_cons, List.map_cons,
        List.sum_cons]

theorem lossRows_eq {J : Type} : ∀ t : JobTracker J,
    lossRows t = (spec_total_losses t, spec_total_loss_time t) := by
  intro t
  induction t with
  | nil => rfl
  | cons row rows ih =>
    show (let r := lossLoop none ((row.drop 1).filterMap id);
          let rest := lossRows rows;
          (r.1 + rest.1, r.2 + rest.2)) = _
    rw [lossLoop_none, ih]
    simp [spec_total_losses, spec_total_loss_time, rowLossPairs]

/-- Claim C6 (amended): `calc_stats_of_loss` returns the total count of
per-transition losses between consecutive applicable milestones of index ≥ 1
(the row's milestone 0 is dropped before collecting applicable cells, rather
than the row's first applicable milestone), paired with the accumulated loss
time of the later milestones divided by that count, zero when the count is
zero. -/
theorem c6_thm {J : Type} (t : JobTracker J) :
    t.calc_stats_of_loss =
      (spec_total_losses t,
       if spec_total_losses t = 0 then 0
       else (spec_total_loss_time t).tdiv (spec_total_losses t)) := by
  unfold JobTracker.calc_stats_of_loss
  rw [lossRows_eq]

/-- Loss transitions exactly as the claim words them: skip the first
applicable milestone of the row, then pair consecutive applicable
milestones. -/
def rowLossPairsClaimed {J : Type} (row : List (Option (Bucket J))) :
    List (Bucket J × Bucket J) :=
  consecPairs ((row.filterMap id).drop 1)

/-- Counterexample for C6 as stated: on a row whose milestone 0 is
inapplicable, the code counts the transition from the first applicable
milestone (index ≥ 1) to the next, while the claim's reading (skip the first
applicable milestone of the row) counts nothing. -/
theorem c6_cex :
    ¬ (∀ (t : JobTracker Unit),
        (t.calc_stats_of_loss).1 =
          (t.map (fun row => ((rowLossPairsClaimed row).map
            (fun p => p.1.achieved.length - p.2.achieved.length)).sum)).sum) := by
  intro h
  exact absurd (h [[none, some ⟨[()], 0, 0⟩, some ⟨[], 0, 0⟩]]) (by decide)

/-! ## Retracing lemmas for the analyzer claims -/

/-- The initial analyzer state has no previous date and is in progress. -/
theorem analyzeInit_fields (job : Job) :
    (analyzeInit job).previous_date = none ∧ (analyzeInit job).in_progress = true := by
  unfold analyzeInit
  split_ifs <;> exact ⟨rfl, rfl⟩

/-- Shape of a retracing step at a present date while in progress: the kind
and error fields may change, but the step either aborts with an out-of-order
anomaly appended (when the date precedes the previous one) or advances the
previous date and the milestone high-water mark. -/
theorem retraceStep_present_shape (md : MilestoneDates) (s : RetraceState)
    (m : Milestone) (d : Timestamp) (hd : md.date m = some d)
    (hip : s.in_progress = true) :
    ∃ kind2 errs2,
      retraceStep md s m =
        (match s.previous_date with
         | some pd =>
           if d < pd then Except.error (errs2 ++ [.outOfOrderDates (some m)])
           else Except.ok ⟨kind2, errs2, some d, m, true⟩
         | none => Except.ok ⟨kind2, errs2, some d, m, true⟩) := by
  unfold retraceStep
  rw [hd, if_pos hip]
  dsimp only
  simp only [hip]
  cases hsp : s.previous_date with
  | none => split_ifs <;> exact ⟨_, _, rfl⟩
  | some pd => split_ifs <;> exact ⟨_, _, rfl⟩

/-- A retracing step at a present date while not in progress aborts with a
skipped-dates anomaly. -/
theorem retraceStep_skipped (md : MilestoneDates) (s : RetraceState)
    (m : Milestone) (d : Timestamp) (hd : md.date m = some d)
    (hip : s.in_progress = false) :
    retraceStep md s m = .error (s.errors ++ [.skippedDates m]) := by
  unfold retraceStep
  rw [hd]
  simp [hip]

/-- A retracing step at an absent date for the contingency milestone leaves
the state unchanged. -/
theorem retraceStep_absent_contingency (md : MilestoneDates) (s : RetraceState)
    (hd : md.date .contingencySigned = none) (hip : s.in_progress = true) :
    retraceStep md s .contingencySigned = .ok s := by
  unfold retraceStep
  rw [hd]
  simp [hip]

/-- A retracing step at an absent non-contingency date unsets the in-progress
flag. -/
theorem retraceStep_absent_other (md : MilestoneDates) (s : RetraceState)
    (m : Milestone) (hd : md.date m = none) (hm : m ≠ .contingencySigned)
    (hip : s.in_progress = true) :
    retraceStep md s m = .ok { s with in_progress := false } := by
  unfold retraceStep
  rw [hd]
  simp [hip, hm]

/-- A successful step at a present date forces in-progress and records the
date. -/
theorem retraceStep_present_of_ok (md : MilestoneDates) (s : RetraceState)
    (m : Milestone) (d : Timestamp) (s2 : RetraceState)
    (hd : md.date m = some d) (hok : retraceStep md s m = .ok s2) :
    s.in_progress = true ∧ s2.previous_date = some d ∧ s2.in_progress = true ∧
    s2.current_milestone = m := by
  by_cases hip : s.in_progress = true
  · obtain ⟨k2, e2, hshape⟩ := retraceStep_present_shape md s m d hd hip
    rw [hshape] at hok
    cases hsp : s.previous_date with
    | none =>
      rw [hsp] at hok
      simp only [Except.ok.injEq] at hok
      subst hok
      exact ⟨hip, rfl, rfl, rfl⟩
    | some pd =>
      simp only [hsp] at hok
      by_cases hlt : d < pd
      · rw [if_pos hlt] at hok
        simp at hok
      · rw [if_neg hlt] at hok
        simp only [Except.ok.injEq] at hok
        subst hok
        exact ⟨hip, rfl, rfl, rfl⟩
  · rw [retraceStep_skipped md s m d hd (by simpa using hip)] at hok
    simp at hok

/-- A step at a present, in-order date succeeds with the date recorded. -/
theorem retraceStep_ok_of_le (md : MilestoneDates) (s : RetraceState)
    (m : Milestone) (d : Timestamp) (hd : md.date m = some d)
    (hip : s.in_progress = true)
    (hle : ∀ pd, s.previous_date = some pd → pd ≤ d) :
    ∃ k2 e2, retraceStep md s m = .ok ⟨k2, e2, some d, m, true⟩ := by
  obtain ⟨k2, e2, hshape⟩ := retraceStep_present_shape md s m d hd hip
  refine ⟨k2, e2, ?_⟩
  rw [hshape]
  cases hsp : s.previous_date with
  | none => rfl
  | some pd =>
    have hnlt : ¬ d < pd := not_lt.mpr (hle pd hsp)
    simp only [if_neg hnlt]

/-- A step at a present date strictly before the previous date aborts with the
out-of-order anomaly appended. -/
theorem retraceStep_abort_of_lt (md : MilestoneDates) (s : RetraceState)
    (m : Milestone) (d pd : Timestamp) (hd : md.date m = some d)
    (hip : s.in_progress = true) (hprev : s.previous_date = some pd)
    (hlt : d < pd) :
    ∃ e2, retraceStep md s m = .error (e2 ++ [.outOfOrderDates (some m)]) := by
  obtain ⟨k2, e2, hshape⟩ := retraceStep_present_shape md s m d hd hip
  simp only [hprev] at hshape
  exact ⟨e2, by rw [hshape, if_pos hlt]⟩

theorem retraceLoop_cons_ok (md : MilestoneDates) (s : RetraceState)
    (m : Milestone) (ms : List Milestone) (s1 : RetraceState)
    (hstep : retraceStep md s m = .ok s1) :
    retraceLoop md s (m :: ms) = retraceLoop md s1 ms := by
  simp only [retraceLoop, hstep]

theorem retraceLoop_cons_error (md : MilestoneDates) (s : RetraceState)
    (m : Milestone) (ms : List Milestone) (e : List JobAnalysisError)
    (hstep : retraceStep md s m = .error e) :
    retraceLoop md s (m :: ms) = .error e := by
  simp only [retraceLoop, hstep]

/-- A completed retrace admits no adjacent pair of present dates in strictly
decreasing order anywhere in its milestone list. -/
theorem retraceLoop_ok_no_descent (md : MilestoneDates) :
    ∀ (ms : List Milestone) (s s2 : RetraceState), retraceLoop md s ms = .ok s2 →
      ∀ (l r : List Milestone) (m m2 : Milestone) (d d2 : Timestamp),
        ms = l ++ m :: m2 :: r → md.date m = some d → md.date m2 = some d2 →
        d2 < d → False := by
  intro ms
  induction ms with
  | nil =>
    intro s s2 _ l r m m2 d d2 habs _ _ _
    exact absurd habs (by simp)
  | cons m0 ms ih =>
    intro s s2 hok l r m m2 d d2 hsplit hd hd2 hlt
    cases hstep : retraceStep md s m0 with
    | error e =>
      rw [retraceLoop_cons_error md s m0 ms e hstep] at hok
      simp at hok
    | ok s1 =>
      rw [retraceLoop_cons_ok md s m0 ms s1 hstep] at hok
      cases l with
      | nil =>
        simp only [List.nil_append, List.cons.injEq] at hsplit
        obtain ⟨hm0, hms⟩ := hsplit
        subst hm0
        subst hms
        obtain ⟨_, hprev, hip, _⟩ := retraceStep_present_of_ok md s m0 d s1 hd hstep
        cases hstep2 : retraceStep md s1 m2 with
        | error e =>
          rw [retraceLoop_cons_error md s1 m2 r e hstep2] at hok
          simp at hok
        | ok s2x =>
          obtain ⟨k2, e2, hshape⟩ := retraceStep_present_shape md s1 m2 d2 hd2 hip
          simp only [hprev] at hshape
          rw [if_pos hlt] at hshape
          rw [hstep2] at hshape
          simp at hshape
      | cons a l =>
        simp only [List.cons_append, List.cons.injEq] at hsplit
        obtain ⟨_, hms⟩ := hsplit
        exact ih s1 s2 hok l r m m2 d d2 hms hd hd2 hlt

/-! ## Claim C2 -/

/-- Cleanliness of the retrace prefix strictly before milestone `m`: every
non-contingency milestone strictly between `LeadAcquired` and `m` has a date,
and the dates present strictly before `m` are pairwise non-decreasing. -/
def cleanBefore (md : MilestoneDates) (m : Milestone) : Bool :=
  (Milestone.ordered.all fun m2 =>
    decide (m2.into_int = 0) || decide (m.into_int ≤ m2.into_int) ||
    decide (m2 = Milestone.contingencySigned) || (md.date m2).isSome) &&
  (Milestone.ordered.all fun m2 => Milestone.ordered.all fun m3 =>
    decide (m3.into_int ≤ m2.into_int) || decide (m.into_int ≤ m3.into_int) ||
    (match md.date m2, md.date m3 with
     | some d2, some d3 => decide (d2 ≤ d3)
     | _, _ => true))

theorem cleanBefore_present (md : MilestoneDates) (m : Milestone)
    (h : cleanBefore md m = true) (m2 : Milestone) (h1 : m2.into_int ≠ 0)
    (h2 : m2.into_int < m.into_int) (h3 : m2 ≠ .contingencySigned) :
    (md.date m2).isSome := by
  unfold cleanBefore at h
  rw [Bool.and_eq_true] at h
  have hall := h.1
  rw [List.all_eq_true] at hall
  have hm2 : m2 ∈ Milestone.ordered := by cases m2 <;> simp [Milestone.ordered]
  have hv := hall m2 hm2
  simp only [Bool.or_eq_true, decide_eq_true_eq] at hv
  rcases hv with ((ha | hb) | hc) | hd2
  · omega
  · omega
  · exact absurd hc h3
  · exact hd2

theorem cleanBefore_mono (md : MilestoneDates) (m : Milestone)
    (h : cleanBefore md m = true) (m2 m3 : Milestone)
    (ho : m2.into_int < m3.into_int) (hm : m3.into_int < m.into_int)
    (d2 d3 : Timestamp) (hd2 : md.date m2 = some d2) (hd3 : md.date m3 = some d3) :
    d2 ≤ d3 := by
  unfold cleanBefore at h
  rw [Bool.and_eq_true] at h
  have hall := h.2
  rw [List.all_eq_true] at hall
  have hm2 : m2 ∈ Milestone.ordered := by cases m2 <;> simp [Milestone.ordered]
  have hm3 : m3 ∈ Milestone.ordered := by cases m3 <;> simp [Milestone.ordered]
  have hv := hall m2 hm2
  simp only [List.all_eq_true] at hv
  have hv2 := hv m3 hm3
  rw [hd2, hd3] at hv2
  simp only [Bool.or_eq_true, decide_eq_true_eq] at hv2
  rcases hv2 with (ha | hb) | hc
  · omega
  · omega
  · exact hc

/-- Claim C2 (amended): for every job whose date at a milestone `m` is
strictly earlier than the date at the immediately preceding milestone (both
present), `analyze_job` returns no analysis; and when additionally the prefix
before `m` is clean (all earlier non-contingency milestones dated, earlier
dates non-decreasing), the anomaly list contains `OutOfOrderDates (some m)`
(otherwise an earlier aborting anomaly is reported instead). -/
theorem c2_thm (job : Job) (mPrev m : Milestone) (dPrev d : Timestamp)
    (hadj : (mPrev, m) ∈ consecPairs Milestone.ordered)
    (hdPrev : job.milestone_dates.date mPrev = some dPrev)
    (hd : job.milestone_dates.date m = some d)
    (hlt : d < dPrev) :
    (analyze_job job).1.analysis = none ∧
    (cleanBefore job.milestone_dates m = true →
      JobAnalysisError.outOfOrderDates (some m) ∈ (analyze_job job).2) := by
  obtain ⟨hprev0, hip0⟩ := analyzeInit_fields job
  have hadj2 : (mPrev = Milestone.leadAcquired ∧ m = Milestone.appointmentMade) ∨
      (mPrev = Milestone.appointmentMade ∧ m = Milestone.contingencySigned) ∨
      (mPrev = Milestone.contingencySigned ∧ m = Milestone.contractSigned) ∨
      (mPrev = Milestone.contractSigned ∧ m = Milestone.installed) := by
    simpa [consecPairs, Milestone.ordered, Prod.ext_iff] using hadj
  rcases hadj2 with ⟨h1, h2⟩ | ⟨h1, h2⟩ | ⟨h1, h2⟩ | ⟨h1, h2⟩
  · subst h1
    simp [MilestoneDates.date] at hdPrev
  · subst h1; subst h2
    cases hres : retraceLoop job.milestone_dates (analyzeInit job)
        (Milestone.ordered.drop 1) with
    | ok sEnd =>
      exact absurd hres (fun hres => retraceLoop_ok_no_descent job.milestone_dates
        _ _ _ hres [] [Milestone.contractSigned, Milestone.installed]
        .appointmentMade .contingencySigned dPrev d rfl hdPrev hd hlt)
    | error errs =>
      refine ⟨by unfold analyze_job; rw [hres], ?_⟩
      intro hclean
      obtain ⟨k1, e1, hstep1⟩ := retraceStep_ok_of_le job.milestone_dates
        (analyzeInit job) .appointmentMade dPrev hdPrev hip0
        (by rw [hprev0]; intro pd h; simp at h)
      obtain ⟨e2, hstep2⟩ := retraceStep_abort_of_lt job.milestone_dates
        ⟨k1, e1, some dPrev, .appointmentMade, true⟩ .contingencySigned d dPrev
        hd rfl rfl hlt
      have hloop : retraceLoop job.milestone_dates (analyzeInit job)
          (Milestone.ordered.drop 1) =
          .error (e2 ++ [.outOfOrderDates (some .contingencySigned)]) := by
        show retraceLoop job.milestone_dates (analyzeInit job)
          [.appointmentMade, .contingencySigned, .contractSigned, .installed] = _
        rw [retraceLoop_cons_ok _ _ _ _ _ hstep1,
          retraceLoop_cons_error _ _ _ _ _ hstep2]
      rw [hres] at hloop
      simp only [Except.error.injEq] at hloop
      subst hloop
      unfold analyze_job
      rw [hres]
      simp
  · subst h1; subst h2
    cases hres : retraceLoop job.milestone_dates (analyzeInit job)
        (Milestone.ordered.drop 1) with
    | ok sEnd =>
      exact absurd hres (fun hres => retraceLoop_ok_no_descent job.milestone_dates
        _ _ _ hres [Milestone.appointmentMade] [Milestone.installed]
        .contingencySigned .contractSigned dPrev d rfl hdPrev hd hlt)
    | error errs =>
      refine ⟨by unfold analyze_job; rw [hres], ?_⟩
      intro hclean
      obtain ⟨dA, hdA⟩ := Option.isSome_iff_exists.mp
        (cleanBefore_present _ _ hclean .appointmentMade (by decide) (by decide)
          (by decide))
      have hAle : dA ≤ dPrev := cleanBefore_mono _ _ hclean
        .appointmentMade .contingencySigned (by decide) (by decide) dA dPrev hdA hdPrev
      obtain ⟨k1, e1, hstep1⟩ := retraceStep_ok_of_le job.milestone_dates
        (analyzeInit job) .appointmentMade dA hdA hip0
        (by rw [hprev0]; intro pd h; simp at h)
      obtain ⟨k2, e2, hstep2⟩ := retraceStep_ok_of_le job.milestone_dates
        ⟨k1, e1, some dA, .appointmentMade, true⟩ .contingencySigned dPrev hdPrev rfl
        (by intro pd h; simp only [Option.some_inj] at h; subst h; exact hAle)
      obtain ⟨e3, hstep3⟩ := retraceStep_abort_of_lt job.milestone_dates
        ⟨k2, e2, some dPrev, .contingencySigned, true⟩ .contractSigned d dPrev
        hd rfl rfl hlt
      have hloop : retraceLoop job.milestone_dates (analyzeInit job)
          (Milestone.ordered.drop 1) =
          .error (e3 ++ [.outOfOrderDates (some .contractSigned)]) := by
        show retraceLoop job.milestone_dates (analyzeInit job)
          [.appointmentMade, .contingencySigned, .contractSigned, .installed] = _
        rw [retraceLoop_cons_ok _ _ _ _ _ hstep1,
          retraceLoop_cons_ok _ _ _ _ _ hstep2,
          retraceLoop_cons_error _ _ _ _ _ hstep3]
      rw [hres] at hloop
      simp only [Except.error.injEq] at hloop
      subst hloop
      unfold analyze_job
      rw [hres]
      simp
  · subst h1; subst h2
    cases hres : retraceLoop job.milestone_dates (analyzeInit job)
        (Milestone.ordered.drop 1) with
    | ok sEnd =>
      exact absurd hres (fun hres => retraceLoop_ok_no_descent job.milestone_dates
        _ _ _ hres [Milestone.appointmentMade, Milestone.contingencySigned] []
        .contractSigned .installed dPrev d rfl hdPrev hd hlt)
    | error errs =>
      refine ⟨by unfold analyze_job; rw [hres], ?_⟩
      intro hclean
      obtain ⟨dA, hdA⟩ := Option.isSome_iff_exists.mp
        (cleanBefore_present _ _ hclean .appointmentMade (by decide) (by decide)
          (by decide))
      have hAle : dA ≤ dPrev := cleanBefore_mono _ _ hclean
        .appointmentMade .contractSigned (by decide) (by decide) dA dPrev hdA hdPrev
      obtain ⟨k1, e1, hstep1⟩ := retraceStep_ok_of_le job.milestone_dates
        (analyzeInit job) .appointmentMade dA hdA hip0
        (by rw [hprev0]; intro pd h; simp at h)
      cases hC : job.milestone_dates.contingency_date with
      | some dC =>
        have hAC : dA ≤ dC := cleanBefore_mono _ _ hclean
          .appointmentMade .contingencySigned (by decide) (by decide) dA dC hdA hC
        have hCP : dC ≤ dPrev := cleanBefore_mono _ _ hclean
          .contingencySigned .contractSigned (by decide) (by decide) dC dPrev hC hdPrev
        obtain ⟨k2, e2, hstep2⟩ := retraceStep_ok_of_le job.milestone_dates
          ⟨k1, e1, some dA, .appointmentMade, true⟩ .contingencySigned dC hC rfl
          (by intro pd h; simp only [Option.some_inj] at h; subst h; exact hAC)
        obtain ⟨k3, e3, hstep3⟩ := retraceStep_ok_of_le job.milestone_dates
          ⟨k2, e2, some dC, .contingencySigned, true⟩ .contractSigned dPrev hdPrev rfl
          (by intro pd h; simp only [Option.some_inj] at h; subst h; exact hCP)
        obtain ⟨e4, hstep4⟩ := retraceStep_abort_of_lt job.milestone_dates
          ⟨k3, e3, some dPrev, .contractSigned, true⟩ .installed d dPrev
          hd rfl rfl hlt
        have hloop : retraceLoop job.milestone_dates (analyzeInit job)
            (Milestone.ordered.drop 1) =
            .error (e4 ++ [.outOfOrderDates (some .installed)]) := by
          show retraceLoop job.milestone_dates (analyzeInit job)
            [.appointmentMade, .contingencySigned, .contractSigned, .installed] = _
          rw [retraceLoop_cons_ok _ _ _ _ _ hstep1,
            retraceLoop_cons_ok _ _ _ _ _ hstep2,
            retraceLoop_cons_ok _ _ _ _ _ hstep3,
            retraceLoop_cons_error _ _ _ _ _ hstep4]
        rw [hres] at hloop
        simp only [Except.error.injEq] at hloop
        subst hloop
        unfold analyze_job
        rw [hres]
        simp
      | none =>
        have hstep2 := retraceStep_absent_contingency job.milestone_dates
          ⟨k1, e1, some dA, .appointmentMade, true⟩ hC rfl
        obtain ⟨k3, e3, hstep3⟩ := retraceStep_ok_of_le job.milestone_dates
          ⟨k1, e1, some dA, .appointmentMade, true⟩ .contractSigned dPrev hdPrev rfl
          (by intro pd h; simp only [Option.some_inj] at h; subst h; exact hAle)
        obtain ⟨e4, hstep4⟩ := retraceStep_abort_of_lt job.milestone_dates
          ⟨k3, e3, some dPrev, .contractSigned, true⟩ .installed d dPrev
          hd rfl rfl hlt
        have hloop : retraceLoop job.milestone_dates (analyzeInit job)
            (Milestone.ordered.drop 1) =
            .error (e4 ++ [.outOfOrderDates (some .installed)]) := by
          show retraceLoop job.milestone_dates (analyzeInit job)
            [.appointmentMade, .contingencySigned, .contractSigned, .installed] = _
          rw [retraceLoop_cons_ok _ _ _ _ _ hstep1,
            retraceLoop_cons_ok _ _ _ _ _ hstep2,
            retraceLoop_cons_ok _ _ _ _ _ hstep3,
            retraceLoop_cons_error _ _ _ _ _ hstep4]
        rw [hres] at hloop
        simp only [Except.error.injEq] at hloop
        subst hloop
        unfold analyze_job
        rw [hres]
        simp

/-- Job with appointment day 5, contingency day 3, contract day 1: the dates
at contract/contingency violate order, but the analyzer aborts earlier, at the
contingency milestone. -/
def c2_cex_job : Job :=
  { jnid := "c2",
    milestone_dates := ⟨some 5, some 3, some 1, none, none⟩,
    sales_rep := none, insurance_checkbox := true, insurance_claim_number := none,
    insurance_company_name := none, job_number := none, job_name := none }

/-- Counterexample for C2 as stated: with dates 5, 3, 1 at the first three
dated milestones, the pair (contingency, contract) satisfies the claim's
hypothesis, yet the anomaly list is `[OutOfOrderDates (some contingency)]` and
does not contain `OutOfOrderDates (some contract)`. -/
theorem c2_cex :
    ¬ (∀ (job : Job) (mPrev m : Milestone) (dPrev d : Timestamp),
        (mPrev, m) ∈ consecPairs Milestone.ordered →
        job.milestone_dates.date mPrev = some dPrev →
        job.milestone_dates.date m = some d → d < dPrev →
        (analyze_job job).1.analysis = none ∧
        JobAnalysisError.outOfOrderDates (some m) ∈ (analyze_job job).2) := by
  intro h
  have h2 := h c2_cex_job .contingencySigned .contractSigned 3 1 (by decide)
    rfl rfl (by decide)
  exact absurd h2.2 (by decide)

/-- Job with appointment day 5 and contingency day 3 (out of order, clean
prefix). -/
def c2_wit_job : Job :=
  { jnid := "c2w",
    milestone_dates := ⟨some 5, some 3, none, none, none⟩,
    sales_rep := none, insurance_checkbox := true, insurance_claim_number := none,
    insurance_company_name := none, job_number := none, job_name := none }

/-- Witness for C2 (amended). -/
theorem c2_wit :
    (analyze_job c2_wit_job).1.analysis = none ∧
    JobAnalysisError.outOfOrderDates (some .contingencySigned) ∈
      (analyze_job c2_wit_job).2 :=
  ⟨(c2_thm c2_wit_job .appointmentMade .contingencySigned 5 3 (by decide)
      rfl rfl (by decide)).1,
   (c2_thm c2_wit_job .appointmentMade .contingencySigned 5 3 (by decide)
      rfl rfl (by decide)).2 (by decide)⟩

/-! ## Claim C7 -/

/-- Claim C7 (amended): provided the milestone retrace completes without an
aborting anomaly, then for a job with a loss date: if the loss date is
strictly earlier than the last confirmed milestone timestamp, `analyze_job`
emits `OutOfOrderDates(None)` and returns no analysis; if instead the loss
date is in order and the furthest milestone reached is `ContractSigned` or
later, it records `InvalidLoss` but still returns a `Some` analysis whose
`loss_timestamp` is the job's loss date. -/
theorem c7_thm (job : Job) (l : Timestamp) (s : RetraceState)
    (hloss : job.milestone_dates.loss_date = some l)
    (hok : retraceLoop job.milestone_dates (analyzeInit job)
      (Milestone.ordered.drop 1) = .ok s) :
    (∀ pd, s.previous_date = some pd → l < pd →
      (analyze_job job).1.analysis = none ∧
      JobAnalysisError.outOfOrderDates none ∈ (analyze_job job).2) ∧
    ((∀ pd, s.previous_date = some pd → pd ≤ l) →
      Milestone.contractSigned.into_int ≤ s.current_milestone.into_int →
      JobAnalysisError.invalidLoss ∈ (analyze_job job).2 ∧
      ∃ a, (analyze_job job).1.analysis = some a ∧ a.loss_timestamp = some l) := by
  constructor
  · intro pd hpd hlt
    have hooo : analyze_job.lossOutOfOrder s.previous_date l = true := by
      rw [hpd]
      simp only [analyze_job.lossOutOfOrder]
      simpa using hlt
    unfold analyze_job
    simp only [hok, hloss, hooo, if_true]
    constructor <;> simp
  · intro hle hcur
    have hooo : analyze_job.lossOutOfOrder s.previous_date l = false := by
      cases hsp : s.previous_date with
      | none => rfl
      | some pd =>
        have hple := hle pd hsp
        simp only [analyze_job.lossOutOfOrder]
        simpa using not_lt.mpr hple
    unfold analyze_job
    simp only [hok, hloss, hooo, Bool.false_eq_true, if_false, if_pos hcur]
    exact ⟨by simp, ⟨_, rfl, rfl⟩⟩

/-- Job with appointment day 5, contingency day 3 and loss day 1: the loss
date precedes the last confirmed milestone timestamp, but the analyzer aborts
at the contingency milestone before the loss check runs. -/
def c7_cex_job : Job :=
  { jnid := "c7",
    milestone_dates := ⟨some 5, some 3, none, none, some 1⟩,
    sales_rep := none, insurance_checkbox := true, insurance_claim_number := none,
    insurance_company_name := none, job_number := none, job_name := none }

/-- Counterexample for C7 as stated: a loss date earlier than the last
confirmed milestone timestamp does not produce `OutOfOrderDates(None)` when an
earlier anomaly aborts the retrace first. -/
theorem c7_cex :
    ¬ (∀ (job : Job) (l p : Timestamp),
        job.milestone_dates.loss_date = some l →
        ((Milestone.ordered.map job.milestone_dates.date).filterMap id).getLast?
          = some p →
        l < p →
        (analyze_job job).1.analysis = none ∧
        JobAnalysisError.outOfOrderDates none ∈ (analyze_job job).2) := by
  intro h
  have h2 := h c7_cex_job 1 3 rfl (by decide) (by decide)
  exact absurd h2.2 (by decide)

/-- Retail job with a contract and an installation plus a loss date. -/
def c7_wit_job : Job :=
  { jnid := "c7w",
    milestone_dates := ⟨some 1, none, some 3, some 4, some 5⟩,
    sales_rep := none, insurance_checkbox := false, insurance_claim_number := none,
    insurance_company_name := none, job_number := none, job_name := none }

/-- Witness for C7 (amended), exercising the invalid-loss part. -/
theorem c7_wit :
    JobAnalysisError.invalidLoss ∈ (analyze_job c7_wit_job).2 ∧
    ∃ a, (analyze_job c7_wit_job).1.analysis = some a ∧
      a.loss_timestamp = some 5 :=
  (c7_thm c7_wit_job 5 ⟨JobKind.retail, [], some 4, .installed, true⟩ rfl
      (by rfl)).2
    (by intro pd h; simp only [Option.some_inj] at h; subst h; decide)
    (by decide)

/-! ## Claim C3: merging trackers -/

/-- Bucket-wise merge: concatenate achieved lists, sum the cumulative times
(the merge operation described by the spec's additivity property). -/
def Bucket.merge {J : Type} (b1 b2 : Bucket J) : Bucket J :=
  ⟨b1.achieved ++ b2.achieved, b1.cum_achieve_time + b2.cum_achieve_time,
   b1.cum_loss_time + b2.cum_loss_time⟩

/-- Cell-wise merge of two optional buckets. -/
def mergeCell {J : Type} : Option (Bucket J) → Option (Bucket J) → Option (Bucket J)
  | some b1, some b2 => some (b1.merge b2)
  | _, _ => none

/-- Bucket-wise merge of two trackers of the same shape. -/
def JobTracker.merge {J : Type} (t1 t2 : JobTracker J) : JobTracker J :=
  List.zipWith (List.zipWith mergeCell) t1 t2

/-- Applicability of a cell. -/
def cellShape {J : Type} (c : Option (Bucket J)) : Bool := c.isSome

/-- The applicability mask realized by a tracker state. -/
def shape {J : Type} (t : JobTracker J) : List (List Bool) :=
  t.map (List.map cellShape)

theorem shape_new {J : Type} (mask : List (List Bool)) :
    shape (JobTracker.new J mask) = mask := by
  unfold shape JobTracker.new
  rw [List.map_map]
  have hcomp : ((List.map cellShape) ∘ fun (row : List Bool) => List.map
      (fun enabled => if enabled then some (Bucket.default J) else none) row) = id := by
    funext row
    simp only [Function.comp_apply, List.map_map]
    have h2 : (cellShape ∘ fun (enabled : Bool) =>
        if enabled then some (Bucket.default J) else none) = id (α := Bool) := by
      funext e
      cases e <;> rfl
    rw [h2, List.map_id]
    rfl
  rw [hcomp, List.map_id]

/-- Merging a row with the fresh row of its shape is the identity. -/
theorem row_merge_new {J : Type} : ∀ row : List (Option (Bucket J)),
    List.zipWith mergeCell row
      (row.map (fun c => if cellShape c then some (Bucket.default J) else none)) = row := by
  intro row
  induction row with
  | nil => rfl
  | cons c cs ih =>
    simp only [List.map_cons, List.zipWith_cons_cons, List.cons.injEq]
    refine ⟨?_, ih⟩
    cases c with
    | none => rfl
    | some b =>
      show mergeCell (some b) (some (Bucket.default J)) = some b
      unfold mergeCell Bucket.merge Bucket.default
      simp

/-- Merging a tracker with the fresh tracker of its shape is the identity. -/
theorem merge_new {J : Type} : ∀ t : JobTracker J,
    t.merge (JobTracker.new J (shape t)) = t := by
  intro t
  induction t with
  | nil => rfl
  | cons row rows ih =>
    show List.zipWith (List.zipWith mergeCell) (row :: rows)
        (JobTracker.new J (shape (row :: rows))) = row :: rows
    have hstep : JobTracker.new J (shape (row :: rows)) =
        (row.map cellShape).map (fun e => if e then some (Bucket.default J) else none)
          :: JobTracker.new J (shape rows) := rfl
    rw [hstep, List.zipWith_cons_cons]
    congr 1
    rw [List.map_map]
    exact row_merge_new row

/-- The milestone loop preserves the shape of the row. -/
theorem addLoop_shape {J : Type} (job : J) : ∀ (ts : List (Option Timestamp))
    (row : List (Option (Bucket J))) (latest : Option Timestamp)
    (row2 : List (Option (Bucket J))) (l2 : Option Timestamp),
    addLoop job row ts latest = some (row2, l2) →
    row2.map cellShape = row.map cellShape := by
  intro ts
  induction ts with
  | nil =>
    intro row latest row2 l2 h
    simp only [addLoop, Option.some_inj, Prod.mk.injEq] at h
    rw [h.1]
  | cons t ts ih =>
    intro row latest row2 l2 h
    match row with
    | [] => simp [addLoop] at h
    | none :: row =>
      match t with
      | some tm => simp [addLoop] at h
      | none =>
        simp only [addLoop] at h
        cases hrec : addLoop job row ts latest with
        | none => rw [hrec] at h; simp at h
        | some p =>
          obtain ⟨r2, lr⟩ := p
          rw [hrec] at h
          simp only [Option.some_inj, Prod.mk.injEq] at h
          rw [← h.1]
          simp only [List.map_cons]
          rw [ih row latest r2 lr hrec]
    | some b :: row =>
      match t with
      | none =>
        simp only [addLoop] at h
        cases hrec : addLoop job row ts latest with
        | none => rw [hrec] at h; simp at h
        | some p =>
          obtain ⟨r2, lr⟩ := p
          rw [hrec] at h
          simp only [Option.some_inj, Prod.mk.injEq] at h
          rw [← h.1]
          simp only [List.map_cons]
          rw [ih row latest r2 lr hrec]
          rfl
      | some tm =>
        simp only [addLoop] at h
        cases hrec : addLoop job row ts (some tm) with
        | none => rw [hrec] at h; simp at h
        | some p =>
          obtain ⟨r2, lr⟩ := p
          rw [hrec] at h
          simp only [Option.some_inj, Prod.mk.injEq] at h
          rw [← h.1]
          simp only [List.map_cons]
          rw [ih row (some tm) r2 lr hrec]
          rfl

/-- The loss-time step preserves the shape of the row suffix. -/
theorem addLossAfter_shape {J : Type} (lt : TimeDelta) :
    ∀ (l l2 : List (Option (Bucket J))), addLossAfter lt l = some l2 →
      l2.map cellShape = l.map cellShape := by
  intro l
  induction l with
  | nil => intro l2 h; simp [addLossAfter] at h
  | cons c l ih =>
    intro l2 h
    match c with
    | none =>
      simp only [addLossAfter] at h
      cases hrec : addLossAfter lt l with
      | none => rw [hrec] at h; simp at h
      | some r2 =>
        rw [hrec] at h
        simp only [Option.some_inj] at h
        rw [← h]
        simp only [List.map_cons]
        rw [ih r2 hrec]
    | some b =>
      simp only [addLossAfter, Option.some_inj] at h
      rw [← h]
      simp only [List.map_cons]
      rfl

/-- `addJobRow` preserves the shape of the row. -/
theorem addJobRow_shape {J : Type} (job : J) (row : List (Option (Bucket J)))
    (ts : List (Option Timestamp)) (loss : Option Timestamp)
    (rowF : List (Option (Bucket J))) (h : addJobRow job row ts loss = some rowF) :
    rowF.map cellShape = row.map cellShape := by
  unfold addJobRow at h
  split at h
  case isFalse => exact absurd h (by simp)
  case isTrue hlen =>
    cases hloop : addLoop job row ts none with
    | none => rw [hloop] at h; simp at h
    | some p =>
      obtain ⟨row2, latest⟩ := p
      rw [hloop] at h
      have hsh2 : row2.map cellShape = row.map cellShape :=
        addLoop_shape job ts row none row2 latest hloop
      cases loss with
      | none =>
        simp only at h
        split at h
        · rw [← Option.some_inj.mp h]; exact hsh2
        · exact absurd h (by simp)
      | some loss_ts =>
        simp only at h
        generalize (match latest with | some l => loss_ts - l | none => 0) = lt at h
        cases hla : addLossAfter lt (row2.drop ts.length) with
        | none => rw [hla] at h; simp at h
        | some rest =>
          rw [hla] at h
          simp only [Option.some_inj] at h
          rw [← h, List.map_append, addLossAfter_shape _ _ _ hla,
            ← List.map_append, List.take_append_drop, hsh2]

/-- Setting an index to the value it already holds changes nothing. -/
theorem set_of_getElem?_self {α : Type} : ∀ (l : List α) (i : Nat) (a : α),
    l[i]? = some a → l.set i a = l := by
  intro l
  induction l with
  | nil => intro i a h; simp at h
  | cons x xs ih =>
    intro i a h
    cases i with
    | zero =>
      rw [List.getElem?_cons_zero, Option.some_inj] at h
      rw [← h]
      rfl
    | succ i =>
      rw [List.getElem?_cons_succ] at h
      rw [List.set_cons_succ, ih i a h]

/-- A successful `add_job` call preserves the shape of the tracker. -/
theorem add_job_shape {J : Type} (t : JobTracker J) (job : J) (kind : Nat)
    (ts : List (Option Timestamp)) (loss : Option Timestamp) (t2 : JobTracker J)
    (h : t.add_job job kind ts loss = some t2) :
    shape t2 = shape t := by
  obtain ⟨row, rowF, hrow, hrf, ht2⟩ := add_job_dest t job kind ts loss t2 h
  subst ht2
  unfold shape
  rw [List.map_set, addJobRow_shape job row ts loss rowF hrf]
  have : (t.map (List.map cellShape))[kind]? = some (row.map cellShape) := by
    rw [List.getElem?_map, hrow]
    rfl
  exact set_of_getElem?_self _ _ _ this


theorem mergeCell_none {J : Type} (c : Option (Bucket J)) : mergeCell none c = none := rfl

theorem mergeCell_some {J : Type} (b1 b2 : Bucket J) :
    mergeCell (some b1) (some b2) = some (b1.merge b2) := rfl

/-- Appending a job (and an achieve-time delta) to the right summand commutes
with the bucket merge. -/
theorem merge_push_time {J : Type} (b1 b2 : Bucket J) (job : J) (d : TimeDelta) :
    b1.merge ⟨b2.achieved ++ [job], b2.cum_achieve_time + d, b2.cum_loss_time⟩ =
      ⟨(b1.merge b2).achieved ++ [job], (b1.merge b2).cum_achieve_time + d,
        (b1.merge b2).cum_loss_time⟩ := by
  simp [Bucket.merge, List.append_assoc, add_assoc]

/-- Appending a job to the right summand commutes with the bucket merge. -/
theorem merge_push {J : Type} (b1 b2 : Bucket J) (job : J) :
    b1.merge ⟨b2.achieved ++ [job], b2.cum_achieve_time, b2.cum_loss_time⟩ =
      ⟨(b1.merge b2).achieved ++ [job], (b1.merge b2).cum_achieve_time,
        (b1.merge b2).cum_loss_time⟩ := by
  simp [Bucket.merge, List.append_assoc]

/-- Adding loss time to the right summand commutes with the bucket merge. -/
theorem merge_push_loss {J : Type} (b1 b2 : Bucket J) (d : TimeDelta) :
    b1.merge ⟨b2.achieved, b2.cum_achieve_time, b2.cum_loss_time + d⟩ =
      ⟨(b1.merge b2).achieved, (b1.merge b2).cum_achieve_time,
        (b1.merge b2).cum_loss_time + d⟩ := by
  simp [Bucket.merge, add_assoc]

theorem zipWith_getElem? {α β γ : Type} (f : α → β → γ) :
    ∀ (l1 : List α) (l2 : List β) (i : Nat) (a : α) (b : β),
      l1[i]? = some a → l2[i]? = some b → (List.zipWith f l1 l2)[i]? = some (f a b) := by
  intro l1
  induction l1 with
  | nil => intro l2 i a b h1 _; simp at h1
  | cons x xs ih =>
    intro l2 i a b h1 h2
    cases l2 with
    | nil => simp at h2
    | cons y ys =>
      cases i with
      | zero =>
        rw [List.getElem?_cons_zero, Option.some_inj] at h1 h2
        rw [List.zipWith_cons_cons, List.getElem?_cons_zero, h1, h2]
      | succ i =>
        rw [List.getElem?_cons_succ] at h1 h2
        rw [List.zipWith_cons_cons, List.getElem?_cons_succ]
        exact ih ys i a b h1 h2

theorem zipWith_set {α β γ : Type} (f : α → β → γ) :
    ∀ (l1 : List α) (l2 : List β) (i : Nat) (a : α) (b : β),
      l1[i]? = some a →
      (List.zipWith f l1 l2).set i (f a b) = List.zipWith f l1 (l2.set i b) := by
  intro l1
  induction l1 with
  | nil => intro l2 i a b h1; simp at h1
  | cons x xs ih =>
    intro l2 i a b h1
    cases l2 with
    | nil => simp
    | cons y ys =>
      cases i with
      | zero =>
        rw [List.getElem?_cons_zero, Option.some_inj] at h1
        rw [h1, List.zipWith_cons_cons, List.set_cons_zero, List.set_cons_zero,
          List.zipWith_cons_cons]
      | succ i =>
        rw [List.getElem?_cons_succ] at h1
        rw [List.zipWith_cons_cons, List.set_cons_succ, List.set_cons_succ,
          List.zipWith_cons_cons, ih ys i a b h1]

/-- The milestone loop commutes with merging in a same-shape row on the left:
running it on the merged row merges its result cell-wise. -/
theorem addLoop_merge {J : Type} (job : J) : ∀ (ts : List (Option Timestamp))
    (r1 r2 : List (Option (Bucket J))) (latest : Option Timestamp)
    (r2' : List (Option (Bucket J))) (l' : Option Timestamp),
    r1.map cellShape = r2.map cellShape →
    addLoop job r2 ts latest = some (r2', l') →
    addLoop job (List.zipWith mergeCell r1 r2) ts latest =
      some (List.zipWith mergeCell r1 r2', l') := by
  intro ts
  induction ts with
  | nil =>
    intro r1 r2 latest r2' l' hsh h
    simp only [addLoop, Option.some_inj, Prod.mk.injEq] at h
    rw [← h.1, ← h.2]
    cases hz : List.zipWith mergeCell r1 r2 with
    | nil => rfl
    | cons c cs => cases c <;> rfl
  | cons t ts ih =>
    intro r1 r2 latest r2' l' hsh h
    match r2 with
    | [] => simp [addLoop] at h
    | c2 :: r2rest =>
      cases r1 with
      | nil => simp at hsh
      | cons c1 r1rest =>
        simp only [List.map_cons, List.cons.injEq] at hsh
        obtain ⟨hc, htail⟩ := hsh
        cases c2 with
        | none =>
          cases c1 with
          | some b1 => simp [cellShape] at hc
          | none =>
            cases t with
            | some tm => simp [addLoop] at h
            | none =>
              simp only [addLoop] at h
              cases hrec : addLoop job r2rest ts latest with
              | none => rw [hrec] at h; simp at h
              | some p =>
                obtain ⟨rr, lr⟩ := p
                rw [hrec] at h
                simp only [Option.some_inj, Prod.mk.injEq] at h
                obtain ⟨h1, h2⟩ := h
                subst h1; subst h2
                rw [List.zipWith_cons_cons, List.zipWith_cons_cons, mergeCell_none]
                simp only [addLoop]
                rw [ih r1rest r2rest latest rr lr htail hrec]
        | some b2 =>
          cases c1 with
          | none => simp [cellShape] at hc
          | some b1 =>
            cases t with
            | none =>
              simp only [addLoop] at h
              cases hrec : addLoop job r2rest ts latest with
              | none => rw [hrec] at h; simp at h
              | some p =>
                obtain ⟨rr, lr⟩ := p
                rw [hrec] at h
                simp only [Option.some_inj, Prod.mk.injEq] at h
                obtain ⟨h1, h2⟩ := h
                subst h1; subst h2
                rw [List.zipWith_cons_cons, List.zipWith_cons_cons, mergeCell_some,
                  mergeCell_some]
                simp only [addLoop]
                rw [ih r1rest r2rest latest rr lr htail hrec, merge_push]
            | some tm =>
              simp only [addLoop] at h
              cases hrec : addLoop job r2rest ts (some tm) with
              | none => rw [hrec] at h; simp at h
              | some p =>
                obtain ⟨rr, lr⟩ := p
                rw [hrec] at h
                simp only [Option.some_inj, Prod.mk.injEq] at h
                obtain ⟨h1, h2⟩ := h
                subst h1; subst h2
                rw [List.zipWith_cons_cons, List.zipWith_cons_cons, mergeCell_some,
                  mergeCell_some]
                simp only [addLoop]
                rw [ih r1rest r2rest (some tm) rr lr htail hrec, merge_push_time]

/-- The loss-time step commutes with merging in a same-shape row suffix on the
left. -/
theorem addLossAfter_merge {J : Type} (lt : TimeDelta) :
    ∀ (l2 l1 l2' : List (Option (Bucket J))),
      l1.map cellShape = l2.map cellShape →
      addLossAfter lt l2 = some l2' →
      addLossAfter lt (List.zipWith mergeCell l1 l2) =
        some (List.zipWith mergeCell l1 l2') := by
  intro l2
  induction l2 with
  | nil => intro l1 l2' _ h; simp [addLossAfter] at h
  | cons c2 l2rest ih =>
    intro l1 l2' hsh h
    cases l1 with
    | nil => simp at hsh
    | cons c1 l1rest =>
      simp only [List.map_cons, List.cons.injEq] at hsh
      obtain ⟨hc, htail⟩ := hsh
      cases c2 with
      | none =>
        cases c1 with
        | some b1 => simp [cellShape] at hc
        | none =>
          simp only [addLossAfter] at h
          cases hrec : addLossAfter lt l2rest with
          | none => rw [hrec] at h; simp at h
          | some r2 =>
            rw [hrec] at h
            simp only [Option.some_inj] at h
            subst h
            rw [List.zipWith_cons_cons, List.zipWith_cons_cons, mergeCell_none]
            simp only [addLossAfter]
            rw [ih l1rest r2 htail hrec]
      | some b2 =>
        cases c1 with
        | none => simp [cellShape] at hc
        | some b1 =>
          simp only [addLossAfter, Option.some_inj] at h
          subst h
          rw [List.zipWith_cons_cons, List.zipWith_cons_cons, mergeCell_some,
            mergeCell_some]
          simp only [addLossAfter]
          rw [merge_push_loss]

/-- `addJobRow` commutes with merging in a same-shape row on the left. -/
theorem addJobRow_merge {J : Type} (job : J) (r1 r2 : List (Option (Bucket J)))
    (ts : List (Option Timestamp)) (loss : Option Timestamp) (rF : List (Option (Bucket J)))
    (hsh : r1.map cellShape = r2.map cellShape)
    (h : addJobRow job r2 ts loss = some rF) :
    addJobRow job (List.zipWith mergeCell r1 r2) ts loss =
      some (List.zipWith mergeCell r1 rF) := by
  have hlen12 : r1.length = r2.length := by
    have hc := congrArg List.length hsh
    simpa using hc
  unfold addJobRow at h ⊢
  split at h
  case isFalse => exact absurd h (by simp)
  case isTrue hlen =>
    rw [if_pos (by rw [List.length_zipWith]; omega)]
    cases hloop : addLoop job r2 ts none with
    | none => rw [hloop] at h; simp at h
    | some p =>
      obtain ⟨row2, latest⟩ := p
      rw [hloop] at h
      rw [addLoop_merge job ts r1 r2 none row2 latest hsh hloop]
      have hlen2 : row2.length = r2.length := (addLoop_spec job ts r2 none row2 latest hloop).1
      have hshp2 : r1.map cellShape = row2.map cellShape := by
        rw [hsh, ← addLoop_shape job ts r2 none row2 latest hloop]
      cases loss with
      | none =>
        simp only at h ⊢
        split at h
        case isTrue hT =>
          rw [if_pos (by rw [List.length_zipWith]; omega)]
          rw [Option.some_inj] at h
          rw [h]
        case isFalse hF =>
          exact absurd h (by simp)
      | some loss_ts =>
        simp only at h ⊢
        generalize (match latest with | some l => loss_ts - l | none => 0) = lt at h ⊢
        cases hla : addLossAfter lt (row2.drop ts.length) with
        | none => rw [hla] at h; simp at h
        | some rest =>
          rw [hla] at h
          simp only [Option.some_inj] at h
          have hdshape : (r1.drop ts.length).map cellShape
              = (row2.drop ts.length).map cellShape := by
            rw [List.map_drop, List.map_drop, hshp2]
          have hmla := addLossAfter_merge lt (row2.drop ts.length) (r1.drop ts.length)
            rest hdshape hla
          rw [List.drop_zipWith, hmla]
          have happ : List.zipWith mergeCell r1 (row2.take ts.length ++ rest) =
              List.zipWith mergeCell (r1.take ts.length) (row2.take ts.length) ++
                List.zipWith mergeCell (r1.drop ts.length) rest := by
            conv_lhs => rw [← List.take_append_drop ts.length r1]
            exact List.zipWith_append _ _ _ _ _
              (by rw [List.length_take, List.length_take]; omega)
          rw [← h, happ, List.take_zipWith]

/-- `add_job` commutes with merging in a same-shape tracker on the left. -/
theorem add_job_merge {J : Type} (t1 t2 : JobTracker J) (job : J) (kind : Nat)
    (ts : List (Option Timestamp)) (loss : Option Timestamp) (t2' : JobTracker J)
    (hsh : shape t1 = shape t2)
    (h : t2.add_job job kind ts loss = some t2') :
    (t1.merge t2).add_job job kind ts loss = some (t1.merge t2') := by
  obtain ⟨row, rowF, hrow, hrf, ht2⟩ := add_job_dest t2 job kind ts loss t2' h
  have hgh : (t1.map (List.map cellShape))[kind]? = some (row.map cellShape) := by
    show (shape t1)[kind]? = _
    rw [hsh]
    unfold shape
    rw [List.getElem?_map, hrow]
    rfl
  rw [List.getElem?_map] at hgh
  obtain ⟨r1, hr1, hr1sh⟩ := Option.map_eq_some'.mp hgh
  subst ht2
  unfold JobTracker.add_job JobTracker.merge
  rw [zipWith_getElem? (List.zipWith mergeCell) t1 t2 kind r1 row hr1 hrow]
  simp only
  rw [addJobRow_merge job r1 row ts loss rowF hr1sh hrf]
  simp only [Option.some_inj]
  exact zipWith_set (List.zipWith mergeCell) t1 t2 kind r1 rowF hr1

theorem foldAdd_cons {J : Type} (t : JobTracker J) (c : AddCall J) (cs : List (AddCall J)) :
    foldAdd t (c :: cs) =
      match t.add_job c.job c.kind c.timestamps c.loss_timestamp with
      | none => none
      | some t2 => foldAdd t2 cs := rfl

/-- Splitting a fold of `add_job` calls at an append. -/
theorem foldAdd_append {J : Type} : ∀ (cs1 cs2 : List (AddCall J)) (t : JobTracker J),
    foldAdd t (cs1 ++ cs2) =
      match foldAdd t cs1 with
      | none => none
      | some t1 => foldAdd t1 cs2 := by
  intro cs1
  induction cs1 with
  | nil => intro cs2 t; rfl
  | cons c cs ih =>
    intro cs2 t
    rw [List.cons_append, foldAdd_cons, foldAdd_cons]
    cases t.add_job c.job c.kind c.timestamps c.loss_timestamp with
    | none => rfl
    | some t2 =>
      show foldAdd t2 (cs ++ cs2) =
        match foldAdd t2 cs with
        | none => none
        | some t1 => foldAdd t1 cs2
      exact ih cs2 t2

/-- A successful fold of `add_job` calls preserves the shape. -/
theorem foldAdd_shape {J : Type} : ∀ (cs : List (AddCall J)) (t t' : JobTracker J),
    foldAdd t cs = some t' → shape t' = shape t := by
  intro cs
  induction cs with
  | nil =>
    intro t t' h
    simp only [foldAdd, Option.some_inj] at h
    rw [h]
  | cons c cs ih =>
    intro t t' h
    simp only [foldAdd] at h
    cases hstep : t.add_job c.job c.kind c.timestamps c.loss_timestamp with
    | none => rw [hstep] at h; simp at h
    | some t2 =>
      rw [hstep] at h
      rw [ih t2 t' h]
      exact add_job_shape t c.job c.kind c.timestamps c.loss_timestamp t2 hstep

/-- A fold of `add_job` calls commutes with merging in a same-shape tracker on
the left. -/
theorem foldAdd_merge {J : Type} : ∀ (cs : List (AddCall J)) (t1 t2 t2' : JobTracker J),
    shape t1 = shape t2 → foldAdd t2 cs = some t2' →
    foldAdd (t1.merge t2) cs = some (t1.merge t2') := by
  intro cs
  induction cs with
  | nil =>
    intro t1 t2 t2' _ h
    simp only [foldAdd, Option.some_inj] at h ⊢
    rw [h]
  | cons c cs ih =>
    intro t1 t2 t2' hsh h
    simp only [foldAdd] at h ⊢
    cases hstep : t2.add_job c.job c.kind c.timestamps c.loss_timestamp with
    | none => rw [hstep] at h; simp at h
    | some t2mid =>
      rw [hstep] at h
      rw [add_job_merge t1 t2 c.job c.kind c.timestamps c.loss_timestamp t2mid hsh hstep]
      exact ih t1 t2mid t2' (by
        rw [hsh]
        exact (add_job_shape t2 c.job c.kind c.timestamps c.loss_timestamp t2mid hstep).symm) h

/-- Building one tracker from concatenated call lists equals merging the two
trackers built from each list over the same mask. -/
theorem merge_eq_concat {J : Type} (mask : List (List Bool))
    (calls1 calls2 : List (AddCall J)) (t1 t2 tc : JobTracker J)
    (h1 : foldAdd (JobTracker.new J mask) calls1 = some t1)
    (h2 : foldAdd (JobTracker.new J mask) calls2 = some t2)
    (hc : foldAdd (JobTracker.new J mask) (calls1 ++ calls2) = some tc) :
    t1.merge t2 = tc := by
  rw [foldAdd_append, h1] at hc
  have hsh1 : shape t1 = mask := by
    rw [foldAdd_shape calls1 _ t1 h1, shape_new]
  have hm : foldAdd (t1.merge (JobTracker.new J mask)) calls2 = some (t1.merge t2) :=
    foldAdd_merge calls2 t1 _ t2 (by rw [shape_new, hsh1]) h2
  rw [show JobTracker.new J mask = JobTracker.new J (shape t1) from by rw [hsh1],
    merge_new] at hm
  have hc2 : foldAdd t1 calls2 = some tc := hc
  rw [hm] at hc2
  exact Option.some_inj.mp hc2

/-- The numeric content of a bucket: achieved count and cumulative times,
the only data `calc_stats` and `calc_stats_of_loss` read. -/
def Bucket.measure {J : Type} (b : Bucket J) : Nat × TimeDelta × TimeDelta :=
  (b.achieved.length, b.cum_achieve_time, b.cum_loss_time)

/-- The numeric content of a tracker state: per-cell bucket measures. -/
def counts {J : Type} (t : JobTracker J) :
    List (List (Option (Nat × TimeDelta × TimeDelta))) :=
  t.map (List.map (Option.map Bucket.measure))

theorem counts_row {J : Type} (t t' : JobTracker J) (hct : counts t = counts t')
    (kind : Nat) :
    (t[kind]?).map (List.map (Option.map Bucket.measure))
      = (t'[kind]?).map (List.map (Option.map Bucket.measure)) := by
  rw [← List.getElem?_map, ← List.getElem?_map]
  show (counts t)[kind]? = (counts t')[kind]?
  rw [hct]

theorem getD_map_congr {α β : Type} (f : α → β) (o o' : Option (List α))
    (h : o.map (List.map f) = o'.map (List.map f)) :
    (o.getD []).map f = (o'.getD []).map f := by
  cases o with
  | none =>
    cases o' with
    | none => rfl
    | some l' => simp at h
  | some l =>
    cases o' with
    | none => simp at h
    | some l' => simpa using h

/-- `bucket_before` depends only on the measures of the row's cells. -/
theorem bucket_before_congr {J : Type} (row row' : List (Option (Bucket J)))
    (hsh : row.map (Option.map Bucket.measure) = row'.map (Option.map Bucket.measure)) :
    ∀ m, (bucket_before row m).map Bucket.measure
      = (bucket_before row' m).map Bucket.measure := by
  intro m
  induction m with
  | zero => rfl
  | succ m ih =>
    have hcell : (row[m]?).map (Option.map Bucket.measure)
        = (row'[m]?).map (Option.map Bucket.measure) := by
      rw [← List.getElem?_map, ← List.getElem?_map, hsh]
    cases hr : row[m]? with
    | none =>
      cases hr' : row'[m]? with
      | some c' =>
        rw [hr, hr'] at hcell
        simp at hcell
      | none =>
        simp only [bucket_before, hr, hr', Option.getD_none]
        exact ih
    | some c =>
      cases hr' : row'[m]? with
      | none =>
        rw [hr, hr'] at hcell
        simp at hcell
      | some c' =>
        rw [hr, hr'] at hcell
        simp only [Option.map_some', Option.some_inj] at hcell
        cases c with
        | none =>
          cases c' with
          | none =>
            simp only [bucket_before, hr, hr', Option.getD_some]
            exact ih
          | some b' => simp at hcell
        | some b =>
          cases c' with
          | none => simp at hcell
          | some b' =>
            simp only [Option.map_some', Option.some_inj] at hcell
            simp only [bucket_before, hr, hr', Option.getD_some, Option.map_some']
            rw [hcell]

/-- `fetchBuckets` depends only on the tracker's counts, up to measures. -/
theorem fetchBuckets_congr {J : Type} (t t' : JobTracker J) (m : Nat)
    (hct : counts t = counts t') : ∀ kinds : List Nat,
    (fetchBuckets t m kinds).map (List.map Bucket.measure)
      = (fetchBuckets t' m kinds).map (List.map Bucket.measure) := by
  intro kinds
  induction kinds with
  | nil => rfl
  | cons kind kinds ih =>
    have hrow := counts_row t t' hct kind
    cases hr : t[kind]? with
    | none =>
      cases hr' : t'[kind]? with
      | some row' =>
        rw [hr, hr'] at hrow
        simp at hrow
      | none => simp only [fetchBuckets, hr, hr']
    | some row =>
      cases hr' : t'[kind]? with
      | none =>
        rw [hr, hr'] at hrow
        simp at hrow
      | some row' =>
        rw [hr, hr'] at hrow
        simp only [Option.map_some', Option.some_inj] at hrow
        have hcell : (row[m]?).map (Option.map Bucket.measure)
            = (row'[m]?).map (Option.map Bucket.measure) := by
          rw [← List.getElem?_map, ← List.getElem?_map, hrow]
        cases hc : row[m]? with
        | none =>
          cases hc' : row'[m]? with
          | some c' =>
            rw [hc, hc'] at hcell
            simp at hcell
          | none => simp only [fetchBuckets, hr, hr', hc, hc']
        | some c =>
          cases hc' : row'[m]? with
          | none =>
            rw [hc, hc'] at hcell
            simp at hcell
          | some c' =>
            rw [hc, hc'] at hcell
            simp only [Option.map_some', Option.some_inj] at hcell
            cases c with
            | none =>
              cases c' with
              | some b' => simp at hcell
              | none => simp only [fetchBuckets, hr, hr', hc, hc']
            | some b =>
              cases c' with
              | none => simp at hcell
              | some b' =>
                simp only [Option.map_some', Option.some_inj] at hcell
                simp only [fetchBuckets, hr, hr', hc, hc']
                cases hfb : fetchBuckets t m kinds with
                | none =>
                  cases hfb' : fetchBuckets t' m kinds with
                  | none => rfl
                  | some bs' =>
                    rw [hfb, hfb'] at ih
                    simp at ih
                | some bs =>
                  cases hfb' : fetchBuckets t' m kinds with
                  | none =>
                    rw [hfb, hfb'] at ih
                    simp at ih
                  | some bs' =>
                    rw [hfb, hfb'] at ih
                    simp only [Option.map_some', Option.some_inj] at ih
                    simp only [Option.map_some', Option.some_inj, List.map_cons]
                    rw [ih, hcell]

/-- `potentialSum` depends only on the tracker's counts and the fetched
buckets' measures. -/
theorem potentialSum_congr {J : Type} (t t' : JobTracker J) (m : Nat)
    (hct : counts t = counts t') : ∀ (kinds : List Nat) (bs bs' : List (Bucket J)),
    bs.map Bucket.measure = bs'.map Bucket.measure →
    potentialSum t m (kinds.zip bs) = potentialSum t' m (kinds.zip bs') := by
  intro kinds
  induction kinds with
  | nil => intro bs bs' _; rfl
  | cons kind kinds ih =>
    intro bs bs' hbs
    cases bs with
    | nil =>
      cases bs' with
      | nil => rfl
      | cons b' rest' => simp at hbs
    | cons b rest =>
      cases bs' with
      | nil => simp at hbs
      | cons b' rest' =>
        simp only [List.map_cons, List.cons.injEq] at hbs
        obtain ⟨hb, hrest⟩ := hbs
        have hlenb : b.achieved.length = b'.achieved.length := congrArg (fun p => p.1) hb
        have hrowm : ((t[kind]?).getD []).map (Option.map Bucket.measure)
            = ((t'[kind]?).getD []).map (Option.map Bucket.measure) :=
          getD_map_congr _ _ _ (counts_row t t' hct kind)
        have hbb := bucket_before_congr _ _ hrowm m
        simp only [List.zip_cons_cons, potentialSum]
        have hih : potentialSum t m (List.zipWith Prod.mk kinds rest)
            = potentialSum t' m (List.zipWith Prod.mk kinds rest') := ih rest rest' hrest
        rw [hih]
        cases hq : bucket_before ((t[kind]?).getD []) m with
        | none =>
          cases hq' : bucket_before ((t'[kind]?).getD []) m with
          | some pb' =>
            rw [hq, hq'] at hbb
            simp at hbb
          | none => rw [hlenb]
        | some pb =>
          cases hq' : bucket_before ((t'[kind]?).getD []) m with
          | none =>
            rw [hq, hq'] at hbb
            simp at hbb
          | some pb' =>
            rw [hq, hq'] at hbb
            simp only [Option.map_some', Option.some_inj] at hbb
            have hpb : pb.achieved.length = pb'.achieved.length := congrArg (fun p => p.1) hbb
            dsimp only
            rw [hpb]

/-- `calc_stats` depends only on the tracker's counts. -/
theorem calc_stats_congr {J : Type} (t t' : JobTracker J)
    (hct : counts t = counts t') (m : Nat) (kinds : List Nat) :
    t.calc_stats m kinds = t'.calc_stats m kinds := by
  unfold JobTracker.calc_stats
  have hfb := fetchBuckets_congr t t' m hct kinds
  cases hf : fetchBuckets t m kinds with
  | none =>
    cases hf' : fetchBuckets t' m kinds with
    | some bs' =>
      rw [hf, hf'] at hfb
      simp at hfb
    | none => rfl
  | some bs =>
    cases hf' : fetchBuckets t' m kinds with
    | none =>
      rw [hf, hf'] at hfb
      simp at hfb
    | some bs' =>
      rw [hf, hf'] at hfb
      simp only [Option.map_some', Option.some_inj] at hfb
      have hlen : bs.map (fun b => b.achieved.length)
          = bs'.map (fun b => b.achieved.length) := by
        have hmm := congrArg (List.map (fun p : Nat × TimeDelta × TimeDelta => p.1)) hfb
        rw [List.map_map, List.map_map] at hmm
        exact hmm
      have htime : bs.map (fun b => b.cum_achieve_time)
          = bs'.map (fun b => b.cum_achieve_time) := by
        have hmm := congrArg (List.map (fun p : Nat × TimeDelta × TimeDelta => p.2.1)) hfb
        rw [List.map_map, List.map_map] at hmm
        exact hmm
      have hpot := potentialSum_congr t t' m hct kinds bs bs' hfb
      simp only
      rw [hlen, htime, hpot]

/-- The per-row loss loop depends only on the buckets' measures. -/
theorem lossLoop_congr {J : Type} : ∀ (bs bs' : List (Bucket J)) (last : Option Nat),
    bs.map Bucket.measure = bs'.map Bucket.measure →
    lossLoop last bs = lossLoop last bs' := by
  intro bs
  induction bs with
  | nil =>
    intro bs' last h
    cases bs' with
    | nil => rfl
    | cons b' rest' => simp at h
  | cons b rest ih =>
    intro bs' last h
    cases bs' with
    | nil => simp at h
    | cons b' rest' =>
      simp only [List.map_cons, List.cons.injEq] at h
      obtain ⟨hb, hrest⟩ := h
      have hlen : b.achieved.length = b'.achieved.length := congrArg (fun p => p.1) hb
      have hclt : b.cum_loss_time = b'.cum_loss_time := congrArg (fun p => p.2.2) hb
      simp only [lossLoop]
      rw [hlen, hclt, ih rest' (some b'.achieved.length) hrest]

/-- The loss row iteration depends only on the tracker's counts. -/
theorem lossRows_congr {J : Type} : ∀ (t t' : JobTracker J),
    counts t = counts t' → lossRows t = lossRows t' := by
  intro t
  induction t with
  | nil =>
    intro t' h
    cases t' with
    | nil => rfl
    | cons row' rows' => simp [counts] at h
  | cons row rows ih =>
    intro t' h
    cases t' with
    | nil => simp [counts] at h
    | cons row' rows' =>
      simp only [counts, List.map_cons, List.cons.injEq] at h
      obtain ⟨hrow, hrows⟩ := h
      have hfm : ((row.drop 1).filterMap id).map Bucket.measure
          = ((row'.drop 1).filterMap id).map Bucket.measure := by
        have hd : (row.drop 1).map (Option.map Bucket.measure)
            = (row'.drop 1).map (Option.map Bucket.measure) := by
          rw [List.map_drop, List.map_drop, hrow]
        have e1 : ∀ (l : List (Option (Bucket J))),
            (l.filterMap id).map Bucket.measure
              = (l.map (Option.map Bucket.measure)).filterMap id := by
          intro l
          rw [List.map_filterMap, List.filterMap_map]
          rfl
        rw [e1, e1, hd]
      simp only [lossRows]
      rw [lossLoop_congr _ _ none hfm, ih rows' hrows]

/-- `calc_stats_of_loss` depends only on the tracker's counts. -/
theorem calc_stats_of_loss_congr {J : Type} (t t' : JobTracker J)
    (hct : counts t = counts t') :
    t.calc_stats_of_loss = t'.calc_stats_of_loss := by
  unfold JobTracker.calc_stats_of_loss
  rw [lossRows_congr t t' hct]

theorem measure_merge_comm {J : Type} (b1 b2 : Bucket J) :
    (b1.merge b2).measure = (b2.merge b1).measure := by
  simp only [Bucket.merge, Bucket.measure, List.length_append, Prod.mk.injEq]
  refine ⟨by omega, by exact add_comm _ _, by exact add_comm _ _⟩

theorem cell_measure_merge_comm {J : Type} (c1 c2 : Option (Bucket J)) :
    (mergeCell c1 c2).map Bucket.measure = (mergeCell c2 c1).map Bucket.measure := by
  cases c1 <;> cases c2 <;> simp [mergeCell, measure_merge_comm]

theorem row_counts_merge_comm {J : Type} : ∀ (r1 r2 : List (Option (Bucket J))),
    (List.zipWith mergeCell r1 r2).map (Option.map Bucket.measure)
      = (List.zipWith mergeCell r2 r1).map (Option.map Bucket.measure) := by
  intro r1
  induction r1 with
  | nil => intro r2; cases r2 <;> rfl
  | cons c1 r1rest ih =>
    intro r2
    cases r2 with
    | nil => rfl
    | cons c2 r2rest =>
      simp only [List.zipWith_cons_cons, List.map_cons, List.cons.injEq]
      exact ⟨cell_measure_merge_comm c1 c2, ih r2rest⟩

/-- The counts of a merged tracker do not depend on the merge order. -/
theorem counts_merge_comm {J : Type} : ∀ (t1 t2 : JobTracker J),
    counts (t1.merge t2) = counts (t2.merge t1) := by
  intro t1
  induction t1 with
  | nil => intro t2; cases t2 <;> rfl
  | cons row1 rows1 ih =>
    intro t2
    cases t2 with
    | nil => rfl
    | cons row2 rows2 =>
      have e1 : JobTracker.merge (row1 :: rows1) (row2 :: rows2)
          = List.zipWith mergeCell row1 row2 :: JobTracker.merge rows1 rows2 := rfl
      have e2 : JobTracker.merge (row2 :: rows2) (row1 :: rows1)
          = List.zipWith mergeCell row2 row1 :: JobTracker.merge rows2 rows1 := rfl
      rw [e1, e2]
      unfold counts
      simp only [List.map_cons, List.cons.injEq]
      exact ⟨row_counts_merge_comm row1 row2, ih rows2⟩

/-- **C3.** For every mask and every two lists of valid `add_job` calls
(disjoint job sets), building one tracker per list over that mask and merging
the two trackers bucket-wise (concatenating achieved lists and summing
`cum_achieve_time` and `cum_loss_time` per cell) yields the same `calc_stats`
results for every query and the same `calc_stats_of_loss` result as building a
single tracker from the concatenation of the two call lists, in either merge
order. -/
theorem c3_thm {J : Type} (mask : List (List Bool))
    (calls1 calls2 : List (AddCall J)) (t1 t2 tc : JobTracker J)
    (h1 : foldAdd (JobTracker.new J mask) calls1 = some t1)
    (h2 : foldAdd (JobTracker.new J mask) calls2 = some t2)
    (hc : foldAdd (JobTracker.new J mask) (calls1 ++ calls2) = some tc) :
    (∀ (m : Nat) (kinds : List Nat),
      (t1.merge t2).calc_stats m kinds = tc.calc_stats m kinds ∧
      (t2.merge t1).calc_stats m kinds = tc.calc_stats m kinds) ∧
    (t1.merge t2).calc_stats_of_loss = tc.calc_stats_of_loss ∧
    (t2.merge t1).calc_stats_of_loss = tc.calc_stats_of_loss := by
  have heq : t1.merge t2 = tc := merge_eq_concat mask calls1 calls2 t1 t2 tc h1 h2 hc
  have hcnt : counts (t2.merge t1) = counts tc := by
    rw [← heq]
    exact counts_merge_comm t2 t1
  exact ⟨fun m kinds => ⟨by rw [heq], calc_stats_congr _ _ hcnt m kinds⟩,
    by rw [heq], calc_stats_of_loss_congr _ _ hcnt⟩

/-- Witness for C3: two one-call lists over the mask `[[true, true]]`; the
hypotheses are discharged by evaluation and the reversed-order merge is
compared at the query `(milestone 1, kinds [0])`. -/
theorem c3_wit :
    foldAdd (JobTracker.new Nat [[true, true]])
        [⟨1, 0, [some 0, some 1], none⟩] = some [[some ⟨[1], 0, 0⟩, some ⟨[1], 1, 0⟩]] ∧
    foldAdd (JobTracker.new Nat [[true, true]])
        [⟨2, 0, [some 0], some 5⟩] = some [[some ⟨[2], 0, 0⟩, some ⟨[], 0, 5⟩]] ∧
    foldAdd (JobTracker.new Nat [[true, true]])
        ([⟨1, 0, [some 0, some 1], none⟩] ++ [⟨2, 0, [some 0], some 5⟩])
      = some [[some ⟨[1, 2], 0, 0⟩, some ⟨[1], 1, 5⟩]] ∧
    (JobTracker.merge [[some ⟨[2], 0, 0⟩, some ⟨[], 0, 5⟩]]
        [[some ⟨[1], 0, 0⟩, some ⟨[1], 1, 0⟩]]).calc_stats 1 [0]
      = JobTracker.calc_stats [[some ⟨[1, 2], 0, 0⟩, some ⟨[1], 1, 5⟩]] 1 [0] :=
  ⟨by decide, by decide, by decide,
    ((c3_thm [[true, true]] [⟨1, 0, [some 0, some 1], none⟩] [⟨2, 0, [some 0], some 5⟩]
        [[some ⟨[1], 0, 0⟩, some ⟨[1], 1, 0⟩]] [[some ⟨[2], 0, 0⟩, some ⟨[], 0, 5⟩]]
        [[some ⟨[1, 2], 0, 0⟩, some ⟨[1], 1, 5⟩]]
        (by decide) (by decide) (by decide)).1 1 [0]).2⟩

end Ahitool
